import Mathlib

/-!
Shallow embedding of `src/buffer/lru_k_replacer.cpp` /
`src/include/buffer/lru_k_replacer.h` (BusTub LRU-K replacer), together with
theorems checking the specification's claims against it.

Modelling conventions:
* `std::list<LRUKNode*>` becomes a `List Nat` of frame ids: every pointer
  stored in the two lists points at the node held in `node_store_` under that
  frame id (pointers into `std::unordered_map` values are stable), so
  dereferencing a pointer is a lookup of the current record under its id.
* `std::unordered_map<frame_id_t, LRUKNode>` becomes an association list.
* The two iterator maps `fid_to_lru_iter_` / `fid_to_fifo_iter_` matter only
  through which keys they hold and whether the held iterator is still valid;
  a held iterator for `f` is valid exactly while `f` is in the corresponding
  list.  They are modelled as the list of keys present.
* Erasing through an iterator that is no longer valid (or one
  default-constructed by `operator[]`) is undefined behavior in C++.  The
  model totalizes those erases as erase-by-id (a no-op when the id is absent)
  and records the event in the sticky flag `ub`; no operation ever clears
  `ub`, so `ub = false` in a final state means no such erase happened along
  the way and the model state agrees with the C++ state.
* `size_t` counters become `Nat`; the only subtraction sites (`curr_size_--`)
  are reached, in every reachable state, with a positive counter (proved via
  the size invariant), so `Nat` truncated subtraction coincides with the
  machine arithmetic there.
-/

namespace BusTub

/-- Access-type tag from the header; informational only, never read by the
selection logic. -/
inductive AccessType where
  | unknown
  | lookupA
  | scanA
  | indexA
deriving DecidableEq

/-- One `LRUKNode`: evictability flag, the bounded history of access
timestamps (most recent first, as produced by `history.push_front`), and the
frame id. -/
structure LRUKNode where
  is_evictable : Bool := false
  history : List Nat := []
  fid : Nat := 0
deriving DecidableEq

instance : Inhabited LRUKNode := ⟨{}⟩

/-- Lookup in the frame table `node_store_` (`find` / `operator[]`). -/
def lookupNode : List (Nat × LRUKNode) → Nat → Option LRUKNode
  | [], _ => none
  | (g, n) :: rest, f => if g = f then some n else lookupNode rest f

/-- Overwrite the node stored under key `f`: in-place mutation of
`node_store_[f]` through a reference or pointer. -/
def updateNode : List (Nat × LRUKNode) → Nat → LRUKNode → List (Nat × LRUKNode)
  | [], _, _ => []
  | (g, m) :: rest, f, n =>
      if g = f then (f, n) :: updateNode rest f n else (g, m) :: updateNode rest f n

/-- Erase the entry under key `f` (`node_store_.erase(f)`). -/
def eraseNode : List (Nat × LRUKNode) → Nat → List (Nat × LRUKNode)
  | [], _ => []
  | (g, m) :: rest, f =>
      if g = f then eraseNode rest f else (g, m) :: eraseNode rest f

/-- Dereference a stored `LRUKNode*` and read `is_evictable`. -/
def isEvictableIn (st : List (Nat × LRUKNode)) (f : Nat) : Bool :=
  match lookupNode st f with
  | some n => n.is_evictable
  | none => false

/-- Dereference a stored `LRUKNode*` and read `history.back()`, the oldest
retained timestamp of the node (0 on an empty history, which never occurs in
a reachable dereference). -/
def histBack (st : List (Nat × LRUKNode)) (f : Nat) : Nat :=
  match lookupNode st f with
  | some n => n.history.getLastD 0
  | none => 0

/-- The `LRUKReplacer` state.  Field names follow the C++ members (without
the trailing underscore).  `ub` is the sticky undefined-behavior marker
described in the file header. -/
structure LRUKReplacer where
  lru_list : List Nat := []
  fifo_list : List Nat := []
  node_store : List (Nat × LRUKNode) := []
  fid_to_lru_iter : List Nat := []
  fid_to_fifo_iter : List Nat := []
  current_timestamp : Nat := 0
  curr_size : Nat := 0
  replacer_size : Nat := 0
  k : Nat := 0
  ub : Bool := false
deriving DecidableEq

/-- The constructor `LRUKReplacer(num_frames, k)`. -/
def mkReplacer (num_frames k : Nat) : LRUKReplacer :=
  { replacer_size := num_frames, k := k }

/-- `Evict`: scan `fifo_list_` from `rbegin()` for the first evictable node;
if `fifo_list_` is non-empty the function returns inside that branch either
way.  Only when `fifo_list_` is empty is `lru_list_` scanned, again from
`rbegin()`.  On success the frame's record is erased, the frame is removed
from the list it was found in, and `curr_size_` is decremented. -/
def LRUKReplacer.evict (s : LRUKReplacer) : Option Nat × LRUKReplacer :=
  if 0 < s.fifo_list.length then
    match s.fifo_list.reverse.find? (fun f => isEvictableIn s.node_store f) with
    | some fid =>
        (some fid,
          { s with
              node_store := eraseNode s.node_store fid
              fifo_list := ((s.fifo_list.reverse).erase fid).reverse
              curr_size := s.curr_size - 1 })
    | none => (none, s)
  else if 0 < s.lru_list.length then
    match s.lru_list.reverse.find? (fun f => isEvictableIn s.node_store f) with
    | some fid =>
        (some fid,
          { s with
              node_store := eraseNode s.node_store fid
              lru_list := ((s.lru_list.reverse).erase fid).reverse
              curr_size := s.curr_size - 1 })
    | none => (none, s)
  else (none, s)

/-- Record that `fid_to_…_iter_[f]` exists after an assignment or an
`operator[]` access: a map insert if the key was absent, otherwise the
existing entry is overwritten. -/
def insertIter (l : List Nat) (f : Nat) : List Nat :=
  if f ∈ l then l else f :: l

/-- The re-insertion scan of `RecordAccess` (lines 109-115): walk
`lru_list_` from `begin()` and insert the node for `f` immediately before
the first node whose `history.back()` is smaller than `b` (the back of the
node being inserted); if no node qualifies, insert at the end. -/
def insertByStale (st : List (Nat × LRUKNode)) (b f : Nat) : List Nat → List Nat
  | [] => [f]
  | g :: gs =>
      if histBack st g < b then f :: g :: gs else g :: insertByStale st b f gs

/-- Body of `RecordAccess` after the range assertion: create the record if
absent (enrolling the frame at the front of `fifo_list_`), push the current
timestamp, then either trim-and-reinsert (more than `k` timestamps), promote
from `fifo_list_` to the front of `lru_list_` (exactly `k` timestamps), or do
nothing more; finally advance the clock.  The promotion branch reads
`fid_to_fifo_iter_[frame_id]` via `operator[]` and erases that iterator from
`fifo_list_` without removing the map entry; the trim branch does the same
with `fid_to_lru_iter_[frame_id]` on `lru_list_`.  Erasing an invalidated or
default-constructed iterator sets `ub`. -/
def LRUKReplacer.recordAccessBody (s : LRUKReplacer) (frame_id : Nat) :
    LRUKReplacer :=
  let s1 :=
    if (lookupNode s.node_store frame_id).isSome then s
    else
      { s with
          node_store :=
            (frame_id, { is_evictable := false, history := [], fid := frame_id })
              :: s.node_store
          fifo_list := frame_id :: s.fifo_list
          fid_to_fifo_iter := insertIter s.fid_to_fifo_iter frame_id }
  let node := (lookupNode s1.node_store frame_id).getD {}
  let node1 := { node with history := s.current_timestamp :: node.history }
  let s2 := { s1 with node_store := updateNode s1.node_store frame_id node1 }
  let s3 :=
    if s.k < node1.history.length then
      let node2 := { node1 with history := node1.history.take s.k }
      let st2 := updateNode s2.node_store frame_id node2
      let bad := !(s2.fid_to_lru_iter.contains frame_id) ||
                 !(s2.lru_list.contains frame_id)
      { s2 with
          node_store := st2
          lru_list :=
            insertByStale st2 (node2.history.getLastD 0) frame_id
              (s2.lru_list.erase frame_id)
          fid_to_lru_iter := insertIter s2.fid_to_lru_iter frame_id
          ub := s2.ub || bad }
    else if node1.history.length = s.k then
      let bad := !(s2.fid_to_fifo_iter.contains frame_id) ||
                 !(s2.fifo_list.contains frame_id)
      { s2 with
          fifo_list := s2.fifo_list.erase frame_id
          fid_to_fifo_iter := insertIter s2.fid_to_fifo_iter frame_id
          lru_list := frame_id :: s2.lru_list
          fid_to_lru_iter := insertIter s2.fid_to_lru_iter frame_id
          ub := s2.ub || bad }
    else s2
  { s3 with current_timestamp := s3.current_timestamp + 1 }

/-- `RecordAccess`: `BUSTUB_ASSERT(frame_id <= replacer_size_)` aborts the
process (modelled as `none`) exactly when `replacer_size_ < frame_id`;
otherwise the body runs.  The access type is informational only. -/
def LRUKReplacer.recordAccess (s : LRUKReplacer) (frame_id : Nat)
    (_access_type : AccessType := AccessType.unknown) : Option LRUKReplacer :=
  if s.replacer_size < frame_id then none
  else some (s.recordAccessBody frame_id)

/-- `SetEvictable`: silently return on an unknown frame; otherwise adjust
`curr_size_` on an actual transition of the flag and store the new flag. -/
def LRUKReplacer.setEvictable (s : LRUKReplacer) (frame_id : Nat)
    (set_evictable : Bool) : LRUKReplacer :=
  match lookupNode s.node_store frame_id with
  | none => s
  | some node =>
      let size1 :=
        if node.is_evictable && !set_evictable then s.curr_size - 1
        else if !node.is_evictable && set_evictable then s.curr_size + 1
        else s.curr_size
      { s with
          node_store :=
            updateNode s.node_store frame_id { node with is_evictable := set_evictable }
          curr_size := size1 }

/-- `Remove`: silently return on an unknown frame, and also silently return
(leaving everything unchanged) when the frame is known but non-evictable.
Otherwise erase the record, erase the frame from `fifo_list_` / `lru_list_`
through whichever iterator-map entries exist (erasing through an entry whose
iterator was invalidated — e.g. an entry left stale by promotion — sets
`ub`), erase those map entries, and decrement `curr_size_`. -/
def LRUKReplacer.remove (s : LRUKReplacer) (frame_id : Nat) : LRUKReplacer :=
  match lookupNode s.node_store frame_id with
  | none => s
  | some node =>
      if !node.is_evictable then s
      else
        let fifoHit := s.fid_to_fifo_iter.contains frame_id
        let lruHit := s.fid_to_lru_iter.contains frame_id
        let bad := (fifoHit && !(s.fifo_list.contains frame_id)) ||
                   (lruHit && !(s.lru_list.contains frame_id))
        { s with
            node_store := eraseNode s.node_store frame_id
            fifo_list := if fifoHit then s.fifo_list.erase frame_id else s.fifo_list
            fid_to_fifo_iter :=
              if fifoHit then s.fid_to_fifo_iter.erase frame_id else s.fid_to_fifo_iter
            lru_list := if lruHit then s.lru_list.erase frame_id else s.lru_list
            fid_to_lru_iter :=
              if lruHit then s.fid_to_lru_iter.erase frame_id else s.fid_to_lru_iter
            curr_size := s.curr_size - 1
            ub := s.ub || bad }

/-- `Size`: returns `curr_size_`. -/
def LRUKReplacer.size (s : LRUKReplacer) : Nat := s.curr_size

/-- One API call, for describing call sequences. -/
inductive Op where
  | access (f : Nat)
  | setEv (f : Nat) (b : Bool)
  | evictOp
  | removeOp (f : Nat)
deriving DecidableEq

/-- Apply one call; `none` propagates a `RecordAccess` assertion failure. -/
def runOp (s : LRUKReplacer) : Op → Option LRUKReplacer
  | Op.access f => s.recordAccess f
  | Op.setEv f b => some (s.setEvictable f b)
  | Op.evictOp => some (s.evict).2
  | Op.removeOp f => some (s.remove f)

/-- Apply a sequence of calls. -/
def runOps (s : LRUKReplacer) : List Op → Option LRUKReplacer
  | [] => some s
  | op :: ops =>
      match runOp s op with
      | none => none
      | some s' => runOps s' ops

/-- Run a call sequence from a freshly constructed replacer. -/
def runFrom (num_frames k : Nat) (ops : List Op) : Option LRUKReplacer :=
  runOps (mkReplacer num_frames k) ops

/-- States reachable from a freshly constructed replacer (the construction
contract requires a history depth of at least 1) by any sequence of API
calls. -/
inductive Reachable : LRUKReplacer → Prop where
  | init (num_frames k : Nat) (hk : 1 ≤ k) : Reachable (mkReplacer num_frames k)
  | record {s s' : LRUKReplacer} (f : Nat) (t : AccessType) :
      Reachable s → s.recordAccess f t = some s' → Reachable s'
  | setEv {s : LRUKReplacer} (f : Nat) (b : Bool) :
      Reachable s → Reachable (s.setEvictable f b)
  | evictStep {s : LRUKReplacer} : Reachable s → Reachable (s.evict).2
  | removeStep {s : LRUKReplacer} (f : Nat) :
      Reachable s → Reachable (s.remove f)


/-! Association-list lemmas for the frame table. -/


theorem lookupNode_cons_self {rest : List (Nat × LRUKNode)} {f : Nat} {n : LRUKNode} :
    lookupNode ((f, n) :: rest) f = some n := by
  simp [lookupNode]

theorem lookupNode_cons_ne {rest : List (Nat × LRUKNode)} {f g : Nat} {n : LRUKNode}
    (h : g ≠ f) : lookupNode ((g, n) :: rest) f = lookupNode rest f := by
  simp [lookupNode, h]

theorem updateNode_cons_self {rest : List (Nat × LRUKNode)} {f : Nat} {m n : LRUKNode} :
    updateNode ((f, m) :: rest) f n = (f, n) :: updateNode rest f n := by
  simp [updateNode]

theorem updateNode_cons_ne {rest : List (Nat × LRUKNode)} {f g : Nat} {m n : LRUKNode}
    (h : g ≠ f) : updateNode ((g, m) :: rest) f n = (g, m) :: updateNode rest f n := by
  simp [updateNode, h]

theorem eraseNode_cons_self {rest : List (Nat × LRUKNode)} {f : Nat} {m : LRUKNode} :
    eraseNode ((f, m) :: rest) f = eraseNode rest f := by
  simp [eraseNode]

theorem eraseNode_cons_ne {rest : List (Nat × LRUKNode)} {f g : Nat} {m : LRUKNode}
    (h : g ≠ f) : eraseNode ((g, m) :: rest) f = (g, m) :: eraseNode rest f := by
  simp [eraseNode, h]

theorem lookupNode_eq_none_iff {st : List (Nat × LRUKNode)} {f : Nat} :
    lookupNode st f = none ↔ ∀ p ∈ st, p.1 ≠ f := by
  induction st with
  | nil => simp [lookupNode]
  | cons p rest ih =>
    obtain ⟨g, n⟩ := p
    by_cases h : g = f
    · subst h; simp [lookupNode_cons_self]
    · simp [lookupNode_cons_ne h, ih, h]

theorem lookupNode_mem {st : List (Nat × LRUKNode)} {f : Nat} {n : LRUKNode}
    (h : lookupNode st f = some n) : (f, n) ∈ st := by
  induction st with
  | nil => simp [lookupNode] at h
  | cons p rest ih =>
    obtain ⟨g, m⟩ := p
    by_cases hg : g = f
    · subst hg
      rw [lookupNode_cons_self] at h
      injection h with h
      subst h
      exact List.mem_cons_self _ _
    · rw [lookupNode_cons_ne hg] at h
      exact List.mem_cons_of_mem _ (ih h)

theorem updateNode_eq_self {st : List (Nat × LRUKNode)} {f : Nat} {n : LRUKNode}
    (h : lookupNode st f = none) : updateNode st f n = st := by
  induction st with
  | nil => simp [updateNode]
  | cons p rest ih =>
    obtain ⟨g, m⟩ := p
    by_cases hg : g = f
    · subst hg; rw [lookupNode_cons_self] at h; exact absurd h (by simp)
    · rw [lookupNode_cons_ne hg] at h
      rw [updateNode_cons_ne hg, ih h]

theorem eraseNode_eq_self {st : List (Nat × LRUKNode)} {f : Nat}
    (h : lookupNode st f = none) : eraseNode st f = st := by
  induction st with
  | nil => simp [eraseNode]
  | cons p rest ih =>
    obtain ⟨g, m⟩ := p
    by_cases hg : g = f
    · subst hg; rw [lookupNode_cons_self] at h; exact absurd h (by simp)
    · rw [lookupNode_cons_ne hg] at h
      rw [eraseNode_cons_ne hg, ih h]

theorem lookupNode_update_self {st : List (Nat × LRUKNode)} {f : Nat}
    {m n : LRUKNode} (h : lookupNode st f = some m) :
    lookupNode (updateNode st f n) f = some n := by
  induction st with
  | nil => simp [lookupNode] at h
  | cons p rest ih =>
    obtain ⟨g, q⟩ := p
    by_cases hg : g = f
    · subst hg; rw [updateNode_cons_self, lookupNode_cons_self]
    · rw [lookupNode_cons_ne hg] at h
      rw [updateNode_cons_ne hg, lookupNode_cons_ne hg]
      exact ih h

theorem lookupNode_update_ne {st : List (Nat × LRUKNode)} {f g : Nat}
    {n : LRUKNode} (h : g ≠ f) :
    lookupNode (updateNode st f n) g = lookupNode st g := by
  induction st with
  | nil => simp [lookupNode, updateNode]
  | cons p rest ih =>
    obtain ⟨a, q⟩ := p
    by_cases ha : a = f
    · subst ha
      rw [updateNode_cons_self, lookupNode_cons_ne (Ne.symm h),
        lookupNode_cons_ne (Ne.symm h)]
      exact ih
    · by_cases hag : a = g
      · subst hag; rw [updateNode_cons_ne ha, lookupNode_cons_self, lookupNode_cons_self]
      · rw [updateNode_cons_ne ha, lookupNode_cons_ne hag, lookupNode_cons_ne hag]
        exact ih

theorem mem_eraseNode {st : List (Nat × LRUKNode)} {f : Nat} {p : Nat × LRUKNode} :
    p ∈ eraseNode st f ↔ p ∈ st ∧ p.1 ≠ f := by
  induction st with
  | nil => simp [eraseNode]
  | cons q rest ih =>
    obtain ⟨a, m⟩ := q
    by_cases ha : a = f
    · subst ha
      rw [eraseNode_cons_self]
      rw [ih]
      constructor
      · rintro ⟨h1, h2⟩; exact ⟨List.mem_cons_of_mem _ h1, h2⟩
      · rintro ⟨h1, h2⟩
        rcases List.mem_cons.mp h1 with h1 | h1
        · exact absurd (congrArg Prod.fst h1) h2
        · exact ⟨h1, h2⟩
    · rw [eraseNode_cons_ne ha]
      constructor
      · intro h1
        rcases List.mem_cons.mp h1 with h1 | h1
        · exact ⟨List.mem_cons.mpr (Or.inl h1), by simp [h1, ha]⟩
        · obtain ⟨h2, h3⟩ := ih.mp h1
          exact ⟨List.mem_cons_of_mem _ h2, h3⟩
      · rintro ⟨h1, h2⟩
        rcases List.mem_cons.mp h1 with h1 | h1
        · exact h1 ▸ List.mem_cons_self _ _
        · exact List.mem_cons_of_mem _ (ih.mpr ⟨h1, h2⟩)

theorem eraseNode_sublist (st : List (Nat × LRUKNode)) (f : Nat) :
    (eraseNode st f).Sublist st := by
  induction st with
  | nil => simp [eraseNode]
  | cons p rest ih =>
    obtain ⟨g, m⟩ := p
    by_cases hg : g = f
    · subst hg; rw [eraseNode_cons_self]; exact ih.cons (g, m)
    · rw [eraseNode_cons_ne hg]; exact ih.cons₂ (g, m)

theorem lookupNode_erase_self {st : List (Nat × LRUKNode)} {f : Nat} :
    lookupNode (eraseNode st f) f = none := by
  rw [lookupNode_eq_none_iff]
  intro p hp
  exact (mem_eraseNode.mp hp).2

theorem lookupNode_erase_ne {st : List (Nat × LRUKNode)} {f g : Nat} (h : g ≠ f) :
    lookupNode (eraseNode st f) g = lookupNode st g := by
  induction st with
  | nil => simp [lookupNode, eraseNode]
  | cons p rest ih =>
    obtain ⟨a, q⟩ := p
    by_cases ha : a = f
    · subst ha
      rw [eraseNode_cons_self, lookupNode_cons_ne (Ne.symm h)]
      exact ih
    · by_cases hag : a = g
      · subst hag
        rw [eraseNode_cons_ne ha, lookupNode_cons_self, lookupNode_cons_self]
      · rw [eraseNode_cons_ne ha, lookupNode_cons_ne hag, lookupNode_cons_ne hag]
        exact ih

theorem keys_updateNode (st : List (Nat × LRUKNode)) (f : Nat) (n : LRUKNode) :
    (updateNode st f n).map Prod.fst = st.map Prod.fst := by
  induction st with
  | nil => simp [updateNode]
  | cons p rest ih =>
    obtain ⟨a, q⟩ := p
    by_cases ha : a = f
    · subst ha; rw [updateNode_cons_self]; simpa using ih
    · rw [updateNode_cons_ne ha]; simpa using ih

theorem mem_updateNode {st : List (Nat × LRUKNode)} {f : Nat} {n : LRUKNode}
    {p : Nat × LRUKNode} (h : p ∈ updateNode st f n) :
    (p ∈ st ∧ p.1 ≠ f) ∨ p = (f, n) := by
  induction st with
  | nil => simp [updateNode] at h
  | cons q rest ih =>
    obtain ⟨a, m⟩ := q
    by_cases ha : a = f
    · subst ha
      rw [updateNode_cons_self] at h
      rcases List.mem_cons.mp h with h | h
      · exact Or.inr h
      · rcases ih h with ⟨h1, h2⟩ | h1
        · exact Or.inl ⟨List.mem_cons_of_mem _ h1, h2⟩
        · exact Or.inr h1
    · rw [updateNode_cons_ne ha] at h
      rcases List.mem_cons.mp h with h | h
      · subst h; exact Or.inl ⟨List.mem_cons_self _ _, ha⟩
      · rcases ih h with ⟨h1, h2⟩ | h1
        · exact Or.inl ⟨List.mem_cons_of_mem _ h1, h2⟩
        · exact Or.inr h1

/-- Number of tracked records whose `is_evictable` flag is set. -/
def countEvictable (st : List (Nat × LRUKNode)) : Nat :=
  (st.filter (fun p => p.2.is_evictable)).length

theorem countEvictable_update {st : List (Nat × LRUKNode)} {f : Nat}
    {m n : LRUKNode} (hnd : (st.map Prod.fst).Nodup)
    (h : lookupNode st f = some m) :
    countEvictable (updateNode st f n) + (if m.is_evictable then 1 else 0) =
      countEvictable st + (if n.is_evictable then 1 else 0) := by
  induction st with
  | nil => simp [lookupNode] at h
  | cons p rest ih =>
    obtain ⟨a, q⟩ := p
    simp only [List.map_cons, List.nodup_cons] at hnd
    by_cases ha : a = f
    · subst ha
      rw [lookupNode_cons_self] at h
      injection h with h
      subst h
      have hrest : lookupNode rest a = none := by
        rw [lookupNode_eq_none_iff]
        intro p hp hpa
        exact hnd.1 (hpa ▸ List.mem_map_of_mem Prod.fst hp)
      rw [updateNode_cons_self, updateNode_eq_self hrest]
      cases hm : q.is_evictable <;> cases hn : n.is_evictable <;>
        simp [countEvictable, List.filter_cons, hm, hn]
    · rw [lookupNode_cons_ne ha] at h
      have hrec := ih hnd.2 h
      rw [updateNode_cons_ne ha]
      cases hq : q.is_evictable <;>
        · simp only [countEvictable, List.filter_cons, hq] at hrec ⊢
          simp only [Bool.false_eq_true, if_false, if_true, List.length_cons] at hrec ⊢
          omega

theorem countEvictable_erase {st : List (Nat × LRUKNode)} {f : Nat}
    {m : LRUKNode} (hnd : (st.map Prod.fst).Nodup)
    (h : lookupNode st f = some m) :
    countEvictable (eraseNode st f) + (if m.is_evictable then 1 else 0) =
      countEvictable st := by
  induction st with
  | nil => simp [lookupNode] at h
  | cons p rest ih =>
    obtain ⟨a, q⟩ := p
    simp only [List.map_cons, List.nodup_cons] at hnd
    by_cases ha : a = f
    · subst ha
      rw [lookupNode_cons_self] at h
      injection h with h
      subst h
      have hrest : lookupNode rest a = none := by
        rw [lookupNode_eq_none_iff]
        intro p hp hpa
        exact hnd.1 (hpa ▸ List.mem_map_of_mem Prod.fst hp)
      rw [eraseNode_cons_self, eraseNode_eq_self hrest]
      cases hm : q.is_evictable <;> simp [countEvictable, List.filter_cons, hm]
    · rw [lookupNode_cons_ne ha] at h
      have hrec := ih hnd.2 h
      rw [eraseNode_cons_ne ha]
      cases hq : q.is_evictable <;>
        · simp only [countEvictable, List.filter_cons, hq] at hrec ⊢
          simp only [Bool.false_eq_true, if_false, if_true, List.length_cons] at hrec ⊢
          omega

theorem countEvictable_pos {st : List (Nat × LRUKNode)} {f : Nat} {n : LRUKNode}
    (h : lookupNode st f = some n) (hev : n.is_evictable = true) :
    1 ≤ countEvictable st := by
  have hm : (f, n) ∈ st.filter (fun p => p.2.is_evictable) :=
    List.mem_filter.mpr ⟨lookupNode_mem h, by simpa using hev⟩
  have := List.length_pos.mpr (List.ne_nil_of_mem hm)
  simpa [countEvictable] using this


/-! Generic list helpers. -/

theorem getLastD_cons_of_ne_nil {l : List Nat} (h : l ≠ []) (a d : Nat) :
    (a :: l).getLastD d = l.getLastD d := by
  cases l with
  | nil => exact absurd rfl h
  | cons b t => simp [List.getLastD_cons]

theorem getLastD_mem {l : List Nat} (h : l ≠ []) (d : Nat) : l.getLastD d ∈ l := by
  induction l with
  | nil => exact absurd rfl h
  | cons a t ih =>
    cases t with
    | nil => simp [List.getLastD]
    | cons b u =>
      rw [getLastD_cons_of_ne_nil (by simp)]
      exact List.mem_cons_of_mem _ (ih (by simp))

theorem pairwise_find?_min {α : Type} {R : α → α → Prop} {p : α → Bool}
    {l : List α} {v : α} (hp : List.Pairwise R l) (hf : l.find? p = some v) :
    ∀ g ∈ l, p g = true → v = g ∨ R v g := by
  induction l with
  | nil => simp [List.find?] at hf
  | cons a t ih =>
    by_cases ha : p a = true
    · rw [List.find?_cons_of_pos _ ha] at hf
      injection hf with hf
      subst hf
      intro g hg hpg
      rcases List.mem_cons.mp hg with rfl | hg
      · exact Or.inl rfl
      · exact Or.inr (List.rel_of_pairwise_cons hp hg)
    · rw [List.find?_cons_of_neg _ (by simpa using ha)] at hf
      intro g hg hpg
      rcases List.mem_cons.mp hg with rfl | hg
      · exact absurd hpg ha
      · exact ih hp.of_cons hf g hg hpg

theorem mem_insertByStale {st : List (Nat × LRUKNode)} {b f g : Nat} {l : List Nat} :
    g ∈ insertByStale st b f l ↔ g = f ∨ g ∈ l := by
  induction l with
  | nil => simp [insertByStale]
  | cons a t ih =>
    by_cases h : histBack st a < b
    · simp only [insertByStale, if_pos h, List.mem_cons]
    · simp only [insertByStale, if_neg h, List.mem_cons, ih]
      tauto

theorem nodup_insertByStale {st : List (Nat × LRUKNode)} {b f : Nat}
    {l : List Nat} (hf : f ∉ l) (h : l.Nodup) :
    (insertByStale st b f l).Nodup := by
  induction l with
  | nil => simp [insertByStale]
  | cons a t ih =>
    rw [List.nodup_cons] at h
    by_cases hc : histBack st a < b
    · simp only [insertByStale, if_pos hc]
      exact List.nodup_cons.mpr ⟨hf, List.nodup_cons.mpr h⟩
    · simp only [insertByStale, if_neg hc]
      refine List.nodup_cons.mpr ⟨?_, ih (fun hm => hf (List.mem_cons_of_mem _ hm)) h.2⟩
      intro hm
      rcases mem_insertByStale.mp hm with rfl | hm
      · exact hf (List.mem_cons_self _ _)
      · exact h.1 hm

theorem mem_of_mem_reverseErase {l : List Nat} {v g : Nat}
    (h : g ∈ ((l.reverse).erase v).reverse) : g ∈ l := by
  rw [List.mem_reverse] at h
  have := List.mem_of_mem_erase h
  rwa [List.mem_reverse] at this

theorem nodup_reverseErase {l : List Nat} (v : Nat) (h : l.Nodup) :
    (((l.reverse).erase v).reverse).Nodup :=
  List.nodup_reverse.mpr ((List.nodup_reverse.mpr h).erase v)

theorem not_mem_reverseErase_self {l : List Nat} (h : l.Nodup) (v : Nat) :
    v ∉ ((l.reverse).erase v).reverse := by
  rw [List.mem_reverse]
  exact (List.nodup_reverse.mpr h).not_mem_erase

theorem mem_reverseErase_of_ne {l : List Nat} {v g : Nat} (hne : g ≠ v) :
    g ∈ ((l.reverse).erase v).reverse ↔ g ∈ l := by
  rw [List.mem_reverse, List.mem_erase_of_ne hne, List.mem_reverse]

theorem pairwise_reverseErase {R : Nat → Nat → Prop} {l : List Nat} (v : Nat)
    (h : List.Pairwise R l) :
    List.Pairwise R (((l.reverse).erase v).reverse) := by
  rw [List.pairwise_reverse]
  exact List.Pairwise.sublist (List.erase_sublist _ _) (List.pairwise_reverse.mpr h)

theorem isEvictableIn_eq_true_iff {st : List (Nat × LRUKNode)} {f : Nat} :
    isEvictableIn st f = true ↔
      ∃ n, lookupNode st f = some n ∧ n.is_evictable = true := by
  unfold isEvictableIn
  cases h : lookupNode st f <;> simp

theorem histBack_eq {st : List (Nat × LRUKNode)} {f : Nat} {n : LRUKNode}
    (h : lookupNode st f = some n) : histBack st f = n.history.getLastD 0 := by
  unfold histBack
  rw [h]

theorem histBack_update_ne {st : List (Nat × LRUKNode)} {f g : Nat}
    {n : LRUKNode} (h : g ≠ f) : histBack (updateNode st f n) g = histBack st g := by
  unfold histBack
  rw [lookupNode_update_ne h]

theorem histBack_erase_ne {st : List (Nat × LRUKNode)} {f g : Nat} (h : g ≠ f) :
    histBack (eraseNode st f) g = histBack st g := by
  unfold histBack
  rw [lookupNode_erase_ne h]


/-! Helpers for the iterator maps and small structural lemmas. -/

theorem contains_iff {l : List Nat} {f : Nat} : l.contains f = true ↔ f ∈ l := by
  induction l with
  | nil => simp
  | cons a t ih => simp

theorem mem_insertIter_self (l : List Nat) (f : Nat) : f ∈ insertIter l f := by
  unfold insertIter
  by_cases h : f ∈ l
  · rwa [if_pos h]
  · rw [if_neg h]; exact List.mem_cons_self _ _

theorem mem_insertIter_of_mem {l : List Nat} {f g : Nat} (h : g ∈ l) :
    g ∈ insertIter l f := by
  unfold insertIter
  by_cases hf : f ∈ l
  · rwa [if_pos hf]
  · rw [if_neg hf]; exact List.mem_cons_of_mem _ h

theorem insertIter_insertIter (l : List Nat) (f : Nat) :
    insertIter (insertIter l f) f = insertIter l f := by
  unfold insertIter
  by_cases h : f ∈ l
  · rw [if_pos h, if_pos h]
  · rw [if_neg h, if_pos (List.mem_cons_self _ _)]

theorem updateNode_updateNode (st : List (Nat × LRUKNode)) (f : Nat)
    (m n : LRUKNode) : updateNode (updateNode st f m) f n = updateNode st f n := by
  induction st with
  | nil => simp [updateNode]
  | cons p rest ih =>
    obtain ⟨a, q⟩ := p
    by_cases ha : a = f
    · subst ha
      rw [updateNode_cons_self, updateNode_cons_self, updateNode_cons_self, ih]
    · rw [updateNode_cons_ne ha, updateNode_cons_ne ha, updateNode_cons_ne ha, ih]

theorem chain'_gt_cons {x : Nat} {l : List Nat} (hlt : ∀ t ∈ l, t < x)
    (hch : List.Chain' (fun a b => b < a) l) :
    List.Chain' (fun a b => b < a) (x :: l) := by
  cases l with
  | nil => simp
  | cons y t => exact hch.cons (hlt y (List.mem_cons_self _ _))

theorem pairwise_congr_of_mem {R S : Nat → Nat → Prop} {l : List Nat}
    (H : ∀ a ∈ l, ∀ b ∈ l, R a b → S a b) (h : l.Pairwise R) : l.Pairwise S := by
  induction l with
  | nil => simp
  | cons a t ih =>
    rw [List.pairwise_cons] at h ⊢
    refine ⟨fun b hb => H a (List.mem_cons_self _ _) b (List.mem_cons_of_mem _ hb)
      (h.1 b hb), ih ?_ h.2⟩
    intro x hx y hy
    exact H x (List.mem_cons_of_mem _ hx) y (List.mem_cons_of_mem _ hy)

/-! Characterizations of each execution path of the four operations. -/

theorem recordAccessBody_existing_small {s : LRUKReplacer} {f : Nat}
    {node : LRUKNode} (hl : lookupNode s.node_store f = some node)
    (hsz : node.history.length + 1 < s.k) :
    s.recordAccessBody f =
      { s with
          node_store := updateNode s.node_store f
            { node with history := s.current_timestamp :: node.history }
          current_timestamp := s.current_timestamp + 1 } := by
  unfold LRUKReplacer.recordAccessBody
  simp only [hl, Option.isSome_some, if_true, Option.getD_some, List.length_cons]
  rw [if_neg (by omega), if_neg (by omega)]


theorem recordAccessBody_fresh_small {s : LRUKReplacer} {f : Nat}
    (hl : lookupNode s.node_store f = none) (hk : 2 ≤ s.k) :
    s.recordAccessBody f =
      { s with
          node_store :=
            (f, { is_evictable := false, history := [s.current_timestamp], fid := f })
              :: s.node_store
          fifo_list := f :: s.fifo_list
          fid_to_fifo_iter := insertIter s.fid_to_fifo_iter f
          current_timestamp := s.current_timestamp + 1 } := by
  unfold LRUKReplacer.recordAccessBody
  simp only [hl, Option.isSome_none, Bool.false_eq_true, if_false,
    lookupNode_cons_self, Option.getD_some, updateNode_cons_self,
    updateNode_eq_self hl, List.length_cons, List.length_nil]
  rw [if_neg (by omega), if_neg (by omega)]

theorem recordAccessBody_fresh_k1 {s : LRUKReplacer} {f : Nat}
    (hl : lookupNode s.node_store f = none) (hk : s.k = 1) :
    s.recordAccessBody f =
      { s with
          node_store :=
            (f, { is_evictable := false, history := [s.current_timestamp], fid := f })
              :: s.node_store
          fid_to_fifo_iter := insertIter s.fid_to_fifo_iter f
          lru_list := f :: s.lru_list
          fid_to_lru_iter := insertIter s.fid_to_lru_iter f
          current_timestamp := s.current_timestamp + 1 } := by
  unfold LRUKReplacer.recordAccessBody
  simp only [hl, Option.isSome_none, Bool.false_eq_true, if_false,
    lookupNode_cons_self, Option.getD_some, updateNode_cons_self,
    updateNode_eq_self hl, List.length_cons, List.length_nil]
  rw [if_neg (by omega), if_pos (by omega)]
  have h1 : (insertIter s.fid_to_fifo_iter f).contains f = true :=
    contains_iff.mpr (mem_insertIter_self _ _)
  have h2 : (f :: s.fifo_list).contains f = true :=
    contains_iff.mpr (List.mem_cons_self _ _)
  simp only [h1, h2, Bool.not_true, Bool.or_self, Bool.or_false,
    List.erase_cons_head, insertIter_insertIter]

theorem recordAccessBody_existing_promote {s : LRUKReplacer} {f : Nat}
    {node : LRUKNode} (hl : lookupNode s.node_store f = some node)
    (hsz : node.history.length + 1 = s.k) :
    s.recordAccessBody f =
      { s with
          node_store := updateNode s.node_store f
            { node with history := s.current_timestamp :: node.history }
          fifo_list := s.fifo_list.erase f
          fid_to_fifo_iter := insertIter s.fid_to_fifo_iter f
          lru_list := f :: s.lru_list
          fid_to_lru_iter := insertIter s.fid_to_lru_iter f
          ub := s.ub || (!(s.fid_to_fifo_iter.contains f) ||
                         !(s.fifo_list.contains f))
          current_timestamp := s.current_timestamp + 1 } := by
  unfold LRUKReplacer.recordAccessBody
  simp only [hl, Option.isSome_some, if_true, Option.getD_some, List.length_cons]
  rw [if_neg (by omega), if_pos hsz]

theorem recordAccessBody_existing_trim {s : LRUKReplacer} {f : Nat}
    {node : LRUKNode} (hl : lookupNode s.node_store f = some node)
    (hsz : s.k < node.history.length + 1) :
    s.recordAccessBody f =
      { s with
          node_store := updateNode s.node_store f
            { node with history := (s.current_timestamp :: node.history).take s.k }
          lru_list := insertByStale
            (updateNode s.node_store f
              { node with history := (s.current_timestamp :: node.history).take s.k })
            (((s.current_timestamp :: node.history).take s.k).getLastD 0) f
            (s.lru_list.erase f)
          fid_to_lru_iter := insertIter s.fid_to_lru_iter f
          ub := s.ub || (!(s.fid_to_lru_iter.contains f) ||
                         !(s.lru_list.contains f))
          current_timestamp := s.current_timestamp + 1 } := by
  unfold LRUKReplacer.recordAccessBody
  simp only [hl, Option.isSome_some, if_true, Option.getD_some, List.length_cons]
  rw [if_pos (by omega)]
  simp only [updateNode_updateNode]

theorem setEvictable_eq_none {s : LRUKReplacer} {f : Nat} {b : Bool}
    (hl : lookupNode s.node_store f = none) : s.setEvictable f b = s := by
  unfold LRUKReplacer.setEvictable
  rw [hl]

theorem setEvictable_eq_some {s : LRUKReplacer} {f : Nat} {b : Bool}
    {node : LRUKNode} (hl : lookupNode s.node_store f = some node) :
    s.setEvictable f b =
      { s with
          node_store := updateNode s.node_store f { node with is_evictable := b }
          curr_size :=
            if node.is_evictable && !b then s.curr_size - 1
            else if !node.is_evictable && b then s.curr_size + 1
            else s.curr_size } := by
  unfold LRUKReplacer.setEvictable
  rw [hl]

theorem remove_eq_none {s : LRUKReplacer} {f : Nat}
    (hl : lookupNode s.node_store f = none) : s.remove f = s := by
  unfold LRUKReplacer.remove
  rw [hl]

theorem remove_eq_not_evictable {s : LRUKReplacer} {f : Nat} {node : LRUKNode}
    (hl : lookupNode s.node_store f = some node)
    (hev : node.is_evictable = false) : s.remove f = s := by
  unfold LRUKReplacer.remove
  rw [hl]
  simp [hev]

theorem remove_eq_evictable {s : LRUKReplacer} {f : Nat} {node : LRUKNode}
    (hl : lookupNode s.node_store f = some node)
    (hev : node.is_evictable = true) :
    s.remove f =
      { s with
          node_store := eraseNode s.node_store f
          fifo_list :=
            if s.fid_to_fifo_iter.contains f then s.fifo_list.erase f else s.fifo_list
          fid_to_fifo_iter :=
            if s.fid_to_fifo_iter.contains f then s.fid_to_fifo_iter.erase f
            else s.fid_to_fifo_iter
          lru_list :=
            if s.fid_to_lru_iter.contains f then s.lru_list.erase f else s.lru_list
          fid_to_lru_iter :=
            if s.fid_to_lru_iter.contains f then s.fid_to_lru_iter.erase f
            else s.fid_to_lru_iter
          curr_size := s.curr_size - 1
          ub := s.ub ||
            ((s.fid_to_fifo_iter.contains f && !(s.fifo_list.contains f)) ||
             (s.fid_to_lru_iter.contains f && !(s.lru_list.contains f))) } := by
  unfold LRUKReplacer.remove
  rw [hl]
  simp [hev]

theorem evict_eq_fifo_some {s : LRUKReplacer} {v : Nat}
    (hne : s.fifo_list ≠ [])
    (hf : s.fifo_list.reverse.find? (fun g => isEvictableIn s.node_store g) = some v) :
    s.evict =
      (some v,
        { s with
            node_store := eraseNode s.node_store v
            fifo_list := ((s.fifo_list.reverse).erase v).reverse
            curr_size := s.curr_size - 1 }) := by
  unfold LRUKReplacer.evict
  rw [if_pos (List.length_pos.mpr hne), hf]

theorem evict_eq_fifo_none {s : LRUKReplacer}
    (hne : s.fifo_list ≠ [])
    (hf : s.fifo_list.reverse.find? (fun g => isEvictableIn s.node_store g) = none) :
    s.evict = (none, s) := by
  unfold LRUKReplacer.evict
  rw [if_pos (List.length_pos.mpr hne), hf]

theorem evict_eq_lru_some {s : LRUKReplacer} {v : Nat}
    (he : s.fifo_list = []) (hne : s.lru_list ≠ [])
    (hf : s.lru_list.reverse.find? (fun g => isEvictableIn s.node_store g) = some v) :
    s.evict =
      (some v,
        { s with
            node_store := eraseNode s.node_store v
            lru_list := ((s.lru_list.reverse).erase v).reverse
            curr_size := s.curr_size - 1 }) := by
  unfold LRUKReplacer.evict
  rw [if_neg (by simp [he]), if_pos (List.length_pos.mpr hne), hf]

theorem evict_eq_lru_none {s : LRUKReplacer}
    (he : s.fifo_list = []) (hne : s.lru_list ≠ [])
    (hf : s.lru_list.reverse.find? (fun g => isEvictableIn s.node_store g) = none) :
    s.evict = (none, s) := by
  unfold LRUKReplacer.evict
  rw [if_neg (by simp [he]), if_pos (List.length_pos.mpr hne), hf]

theorem evict_eq_empty {s : LRUKReplacer}
    (he : s.fifo_list = []) (hlr : s.lru_list = []) : s.evict = (none, s) := by
  unfold LRUKReplacer.evict
  rw [if_neg (by simp [he]), if_neg (by simp [hlr])]


/-! The reachable-state invariant. -/

/-- Invariant of every reachable replacer state: the two ordering lists
partition the tracked frames by history length, are duplicate-free, are
covered by the iterator maps, `curr_size_` counts the evictable records,
histories are bounded, non-empty, strictly most-recent-first and below the
clock, and `fifo_list_` is strictly ordered by first-access time with the
oldest first access at the tail. -/
structure Inv (s : LRUKReplacer) : Prop where
  k_pos : 1 ≤ s.k
  store_nodup : (s.node_store.map Prod.fst).Nodup
  fid_eq : ∀ p ∈ s.node_store, p.2.fid = p.1
  fifo_tracked : ∀ f ∈ s.fifo_list,
    ∃ n, lookupNode s.node_store f = some n ∧ n.history.length < s.k
  lru_tracked : ∀ f ∈ s.lru_list,
    ∃ n, lookupNode s.node_store f = some n ∧ n.history.length = s.k
  tracked_mem : ∀ p ∈ s.node_store, p.1 ∈ s.fifo_list ∨ p.1 ∈ s.lru_list
  fifo_nodup : s.fifo_list.Nodup
  lru_nodup : s.lru_list.Nodup
  fifo_lru_disj : ∀ f ∈ s.fifo_list, f ∉ s.lru_list
  fifo_iter : ∀ f ∈ s.fifo_list, f ∈ s.fid_to_fifo_iter
  lru_iter : ∀ f ∈ s.lru_list, f ∈ s.fid_to_lru_iter
  size_eq : s.curr_size = countEvictable s.node_store
  hist_lt : ∀ p ∈ s.node_store, ∀ t ∈ p.2.history, t < s.current_timestamp
  hist_sorted : ∀ p ∈ s.node_store, List.Chain' (fun a b => b < a) p.2.history
  hist_len : ∀ p ∈ s.node_store, p.2.history.length ≤ s.k
  hist_ne_nil : ∀ p ∈ s.node_store, p.2.history ≠ []
  fifo_sorted : List.Pairwise
    (fun a b => histBack s.node_store b < histBack s.node_store a) s.fifo_list

theorem not_mem_fifo_of_lookup_none {s : LRUKReplacer} (h : Inv s) {f : Nat}
    (hl : lookupNode s.node_store f = none) : f ∉ s.fifo_list := by
  intro hm
  obtain ⟨n, hn, -⟩ := h.fifo_tracked f hm
  rw [hl] at hn
  exact Option.noConfusion hn

theorem not_mem_lru_of_lookup_none {s : LRUKReplacer} (h : Inv s) {f : Nat}
    (hl : lookupNode s.node_store f = none) : f ∉ s.lru_list := by
  intro hm
  obtain ⟨n, hn, -⟩ := h.lru_tracked f hm
  rw [hl] at hn
  exact Option.noConfusion hn

theorem inv_mkReplacer (num_frames k : Nat) (hk : 1 ≤ k) :
    Inv (mkReplacer num_frames k) := by
  refine ⟨hk, ?_, ?_, ?_, ?_, ?_, ?_, ?_, ?_, ?_, ?_, ?_, ?_, ?_, ?_, ?_, ?_⟩ <;>
    simp [mkReplacer, countEvictable]

theorem inv_setEvictable {s : LRUKReplacer} (h : Inv s) (f : Nat) (b : Bool) :
    Inv (s.setEvictable f b) := by
  cases hl : lookupNode s.node_store f with
  | none => rw [setEvictable_eq_none hl]; exact h
  | some node =>
    rw [setEvictable_eq_some hl]
    have hBack : ∀ g, histBack (updateNode s.node_store f
        { node with is_evictable := b }) g = histBack s.node_store g := by
      intro g
      by_cases hg : g = f
      · subst hg
        rw [histBack_eq (lookupNode_update_self hl), histBack_eq hl]
      · rw [histBack_update_ne hg]
    refine ⟨h.k_pos, ?_, ?_, ?_, ?_, ?_, h.fifo_nodup, h.lru_nodup,
      h.fifo_lru_disj, h.fifo_iter, h.lru_iter, ?_, ?_, ?_, ?_, ?_, ?_⟩
    · rw [keys_updateNode]; exact h.store_nodup
    · intro p hp
      rcases mem_updateNode hp with ⟨hp1, -⟩ | hp1
      · exact h.fid_eq p hp1
      · subst hp1
        simpa using h.fid_eq (f, node) (lookupNode_mem hl)
    · intro g hg
      by_cases hgf : g = f
      · subst hgf
        exact ⟨_, lookupNode_update_self hl, by
          obtain ⟨m, hm, hlen⟩ := h.fifo_tracked g hg
          rw [hl] at hm
          injection hm with hm
          subst hm
          simpa using hlen⟩
      · obtain ⟨m, hm, hlen⟩ := h.fifo_tracked g hg
        exact ⟨m, by rw [lookupNode_update_ne hgf]; exact hm, hlen⟩
    · intro g hg
      by_cases hgf : g = f
      · subst hgf
        exact ⟨_, lookupNode_update_self hl, by
          obtain ⟨m, hm, hlen⟩ := h.lru_tracked g hg
          rw [hl] at hm
          injection hm with hm
          subst hm
          simpa using hlen⟩
      · obtain ⟨m, hm, hlen⟩ := h.lru_tracked g hg
        exact ⟨m, by rw [lookupNode_update_ne hgf]; exact hm, hlen⟩
    · intro p hp
      rcases mem_updateNode hp with ⟨hp1, -⟩ | hp1
      · exact h.tracked_mem p hp1
      · subst hp1
        simpa using h.tracked_mem (f, node) (lookupNode_mem hl)
    · have hcu := countEvictable_update (n := { node with is_evictable := b })
        h.store_nodup hl
      have hsz := h.size_eq
      cases hev : node.is_evictable <;> cases b <;>
        · simp [hev] at hcu ⊢
          omega
    · intro p hp t ht
      rcases mem_updateNode hp with ⟨hp1, -⟩ | hp1
      · exact h.hist_lt p hp1 t ht
      · subst hp1
        exact h.hist_lt (f, node) (lookupNode_mem hl) t (by simpa using ht)
    · intro p hp
      rcases mem_updateNode hp with ⟨hp1, -⟩ | hp1
      · exact h.hist_sorted p hp1
      · subst hp1
        simpa using h.hist_sorted (f, node) (lookupNode_mem hl)
    · intro p hp
      rcases mem_updateNode hp with ⟨hp1, -⟩ | hp1
      · exact h.hist_len p hp1
      · subst hp1
        simpa using h.hist_len (f, node) (lookupNode_mem hl)
    · intro p hp
      rcases mem_updateNode hp with ⟨hp1, -⟩ | hp1
      · exact h.hist_ne_nil p hp1
      · subst hp1
        simpa using h.hist_ne_nil (f, node) (lookupNode_mem hl)
    · exact h.fifo_sorted.imp (fun hab => by
        simp only [hBack]
        exact hab)


theorem inv_evict {s : LRUKReplacer} (h : Inv s) : Inv (s.evict).2 := by
  by_cases hfe : s.fifo_list = []
  · by_cases hle : s.lru_list = []
    · rw [evict_eq_empty hfe hle]; exact h
    · cases hf : s.lru_list.reverse.find? (fun g => isEvictableIn s.node_store g) with
      | none => rw [evict_eq_lru_none hfe hle hf]; exact h
      | some v =>
        rw [evict_eq_lru_some hfe hle hf]
        have hvm : v ∈ s.lru_list := by
          have := List.mem_of_find?_eq_some hf
          rwa [List.mem_reverse] at this
        obtain ⟨nv, hnv, hvlen⟩ := h.lru_tracked v hvm
        have hvev : nv.is_evictable = true := by
          have hfs := List.find?_some hf
          rw [isEvictableIn_eq_true_iff] at hfs
          obtain ⟨m, hm, hev⟩ := hfs
          rw [hnv] at hm
          injection hm with hm
          subst hm
          exact hev
        have hnev : ∀ g ∈ ((s.lru_list.reverse).erase v).reverse, g ≠ v :=
          fun g hg hgv => (not_mem_reverseErase_self h.lru_nodup v) (hgv ▸ hg)
        refine ⟨h.k_pos, ?_, ?_, ?_, ?_, ?_, h.fifo_nodup, ?_, ?_, h.fifo_iter,
          ?_, ?_, ?_, ?_, ?_, ?_, ?_⟩
        · exact List.Nodup.sublist ((eraseNode_sublist _ _).map Prod.fst) h.store_nodup
        · intro p hp
          exact h.fid_eq p (mem_eraseNode.mp hp).1
        · intro g hg
          rw [hfe] at hg
          exact absurd hg (List.not_mem_nil g)
        · intro g hg
          have hgv := hnev g hg
          obtain ⟨m, hm, hlen⟩ := h.lru_tracked g (mem_of_mem_reverseErase hg)
          exact ⟨m, by rw [lookupNode_erase_ne hgv]; exact hm, hlen⟩
        · intro p hp
          obtain ⟨hp1, hp2⟩ := mem_eraseNode.mp hp
          rcases h.tracked_mem p hp1 with hm | hm
          · exact Or.inl hm
          · exact Or.inr ((mem_reverseErase_of_ne hp2).mpr hm)
        · exact nodup_reverseErase v h.lru_nodup
        · intro g hg
          rw [hfe] at hg
          exact absurd hg (List.not_mem_nil g)
        · intro g hg
          exact h.lru_iter g (mem_of_mem_reverseErase hg)
        · have hce := countEvictable_erase h.store_nodup hnv
          rw [hvev, if_pos rfl] at hce
          have hsz := h.size_eq
          simp only []
          omega
        · intro p hp t ht
          exact h.hist_lt p (mem_eraseNode.mp hp).1 t ht
        · intro p hp
          exact h.hist_sorted p (mem_eraseNode.mp hp).1
        · intro p hp
          exact h.hist_len p (mem_eraseNode.mp hp).1
        · intro p hp
          exact h.hist_ne_nil p (mem_eraseNode.mp hp).1
        · rw [hfe]
          exact List.Pairwise.nil
  · cases hf : s.fifo_list.reverse.find? (fun g => isEvictableIn s.node_store g) with
    | none => rw [evict_eq_fifo_none hfe hf]; exact h
    | some v =>
      rw [evict_eq_fifo_some hfe hf]
      have hvm : v ∈ s.fifo_list := by
        have := List.mem_of_find?_eq_some hf
        rwa [List.mem_reverse] at this
      obtain ⟨nv, hnv, hvlen⟩ := h.fifo_tracked v hvm
      have hvev : nv.is_evictable = true := by
        have hfs := List.find?_some hf
        rw [isEvictableIn_eq_true_iff] at hfs
        obtain ⟨m, hm, hev⟩ := hfs
        rw [hnv] at hm
        injection hm with hm
        subst hm
        exact hev
      have hnev : ∀ g ∈ ((s.fifo_list.reverse).erase v).reverse, g ≠ v :=
        fun g hg hgv => (not_mem_reverseErase_self h.fifo_nodup v) (hgv ▸ hg)
      have hvnl : v ∉ s.lru_list := h.fifo_lru_disj v hvm
      refine ⟨h.k_pos, ?_, ?_, ?_, ?_, ?_, ?_, h.lru_nodup, ?_, ?_, h.lru_iter,
        ?_, ?_, ?_, ?_, ?_, ?_⟩
      · exact List.Nodup.sublist ((eraseNode_sublist _ _).map Prod.fst) h.store_nodup
      · intro p hp
        exact h.fid_eq p (mem_eraseNode.mp hp).1
      · intro g hg
        have hgv := hnev g hg
        obtain ⟨m, hm, hlen⟩ := h.fifo_tracked g (mem_of_mem_reverseErase hg)
        exact ⟨m, by rw [lookupNode_erase_ne hgv]; exact hm, hlen⟩
      · intro g hg
        have hgv : g ≠ v := fun hgv => hvnl (hgv ▸ hg)
        obtain ⟨m, hm, hlen⟩ := h.lru_tracked g hg
        exact ⟨m, by rw [lookupNode_erase_ne hgv]; exact hm, hlen⟩
      · intro p hp
        obtain ⟨hp1, hp2⟩ := mem_eraseNode.mp hp
        rcases h.tracked_mem p hp1 with hm | hm
        · exact Or.inl ((mem_reverseErase_of_ne hp2).mpr hm)
        · exact Or.inr hm
      · exact nodup_reverseErase v h.fifo_nodup
      · intro g hg
        exact h.fifo_lru_disj g (mem_of_mem_reverseErase hg)
      · intro g hg
        exact h.fifo_iter g (mem_of_mem_reverseErase hg)
      · have hce := countEvictable_erase h.store_nodup hnv
        rw [hvev, if_pos rfl] at hce
        have hsz := h.size_eq
        simp only []
        omega
      · intro p hp t ht
        exact h.hist_lt p (mem_eraseNode.mp hp).1 t ht
      · intro p hp
        exact h.hist_sorted p (mem_eraseNode.mp hp).1
      · intro p hp
        exact h.hist_len p (mem_eraseNode.mp hp).1
      · intro p hp
        exact h.hist_ne_nil p (mem_eraseNode.mp hp).1
      · refine pairwise_congr_of_mem ?_ (pairwise_reverseErase v h.fifo_sorted)
        intro a ha b hb hab
        rw [histBack_erase_ne (hnev b hb), histBack_erase_ne (hnev a ha)]
        exact hab


theorem inv_remove {s : LRUKReplacer} (h : Inv s) (f : Nat) : Inv (s.remove f) := by
  cases hl : lookupNode s.node_store f with
  | none => rw [remove_eq_none hl]; exact h
  | some node =>
    cases hev : node.is_evictable with
    | false => rw [remove_eq_not_evictable hl hev]; exact h
    | true =>
      rw [remove_eq_evictable hl hev]
      have hfifoS :
          (if s.fid_to_fifo_iter.contains f then s.fifo_list.erase f
            else s.fifo_list).Sublist s.fifo_list := by
        by_cases hc : s.fid_to_fifo_iter.contains f = true
        · rw [if_pos hc]; exact List.erase_sublist _ _
        · rw [if_neg hc]
      have hlruS :
          (if s.fid_to_lru_iter.contains f then s.lru_list.erase f
            else s.lru_list).Sublist s.lru_list := by
        by_cases hc : s.fid_to_lru_iter.contains f = true
        · rw [if_pos hc]; exact List.erase_sublist _ _
        · rw [if_neg hc]
      have hfifoM : ∀ g, g ∈ (if s.fid_to_fifo_iter.contains f then
          s.fifo_list.erase f else s.fifo_list) ↔ (g ∈ s.fifo_list ∧ g ≠ f) := by
        intro g
        by_cases hc : s.fid_to_fifo_iter.contains f = true
        · rw [if_pos hc]
          constructor
          · intro hg
            refine ⟨List.mem_of_mem_erase hg, ?_⟩
            rintro rfl
            exact h.fifo_nodup.not_mem_erase hg
          · rintro ⟨hg, hne⟩
            exact (List.mem_erase_of_ne hne).mpr hg
        · rw [if_neg hc]
          constructor
          · intro hg
            refine ⟨hg, ?_⟩
            rintro rfl
            exact hc (contains_iff.mpr (h.fifo_iter g hg))
          · exact fun hg => hg.1
      have hlruM : ∀ g, g ∈ (if s.fid_to_lru_iter.contains f then
          s.lru_list.erase f else s.lru_list) ↔ (g ∈ s.lru_list ∧ g ≠ f) := by
        intro g
        by_cases hc : s.fid_to_lru_iter.contains f = true
        · rw [if_pos hc]
          constructor
          · intro hg
            refine ⟨List.mem_of_mem_erase hg, ?_⟩
            rintro rfl
            exact h.lru_nodup.not_mem_erase hg
          · rintro ⟨hg, hne⟩
            exact (List.mem_erase_of_ne hne).mpr hg
        · rw [if_neg hc]
          constructor
          · intro hg
            refine ⟨hg, ?_⟩
            rintro rfl
            exact hc (contains_iff.mpr (h.lru_iter g hg))
          · exact fun hg => hg.1
      have hfifoI : ∀ g, g ∈ s.fid_to_fifo_iter → g ≠ f →
          g ∈ (if s.fid_to_fifo_iter.contains f then s.fid_to_fifo_iter.erase f
            else s.fid_to_fifo_iter) := by
        intro g hg hne
        by_cases hc : s.fid_to_fifo_iter.contains f = true
        · rw [if_pos hc]; exact (List.mem_erase_of_ne hne).mpr hg
        · rw [if_neg hc]; exact hg
      have hlruI : ∀ g, g ∈ s.fid_to_lru_iter → g ≠ f →
          g ∈ (if s.fid_to_lru_iter.contains f then s.fid_to_lru_iter.erase f
            else s.fid_to_lru_iter) := by
        intro g hg hne
        by_cases hc : s.fid_to_lru_iter.contains f = true
        · rw [if_pos hc]; exact (List.mem_erase_of_ne hne).mpr hg
        · rw [if_neg hc]; exact hg
      refine ⟨h.k_pos, ?_, ?_, ?_, ?_, ?_, ?_, ?_, ?_, ?_, ?_, ?_, ?_, ?_, ?_, ?_, ?_⟩
      · exact List.Nodup.sublist ((eraseNode_sublist _ _).map Prod.fst) h.store_nodup
      · intro p hp
        exact h.fid_eq p (mem_eraseNode.mp hp).1
      · intro g hg
        obtain ⟨hg1, hg2⟩ := (hfifoM g).mp hg
        obtain ⟨m, hm, hlen⟩ := h.fifo_tracked g hg1
        exact ⟨m, by rw [lookupNode_erase_ne hg2]; exact hm, hlen⟩
      · intro g hg
        obtain ⟨hg1, hg2⟩ := (hlruM g).mp hg
        obtain ⟨m, hm, hlen⟩ := h.lru_tracked g hg1
        exact ⟨m, by rw [lookupNode_erase_ne hg2]; exact hm, hlen⟩
      · intro p hp
        obtain ⟨hp1, hp2⟩ := mem_eraseNode.mp hp
        rcases h.tracked_mem p hp1 with hm | hm
        · exact Or.inl ((hfifoM p.1).mpr ⟨hm, hp2⟩)
        · exact Or.inr ((hlruM p.1).mpr ⟨hm, hp2⟩)
      · exact List.Nodup.sublist hfifoS h.fifo_nodup
      · exact List.Nodup.sublist hlruS h.lru_nodup
      · intro g hg hg2
        obtain ⟨hg1, -⟩ := (hfifoM g).mp hg
        exact h.fifo_lru_disj g hg1 ((hlruM g).mp hg2).1
      · intro g hg
        obtain ⟨hg1, hg2⟩ := (hfifoM g).mp hg
        exact hfifoI g (h.fifo_iter g hg1) hg2
      · intro g hg
        obtain ⟨hg1, hg2⟩ := (hlruM g).mp hg
        exact hlruI g (h.lru_iter g hg1) hg2
      · have hce := countEvictable_erase h.store_nodup hl
        rw [hev, if_pos rfl] at hce
        have hsz := h.size_eq
        simp only []
        omega
      · intro p hp t ht
        exact h.hist_lt p (mem_eraseNode.mp hp).1 t ht
      · intro p hp
        exact h.hist_sorted p (mem_eraseNode.mp hp).1
      · intro p hp
        exact h.hist_len p (mem_eraseNode.mp hp).1
      · intro p hp
        exact h.hist_ne_nil p (mem_eraseNode.mp hp).1
      · refine pairwise_congr_of_mem ?_ (h.fifo_sorted.sublist hfifoS)
        intro a ha b hb hab
        rw [histBack_erase_ne ((hfifoM b).mp hb).2,
          histBack_erase_ne ((hfifoM a).mp ha).2]
        exact hab


theorem histBack_cons_ne {st : List (Nat × LRUKNode)} {f g : Nat} {n : LRUKNode}
    (h : g ≠ f) : histBack ((f, n) :: st) g = histBack st g := by
  unfold histBack
  rw [lookupNode_cons_ne (Ne.symm h)]

theorem inv_recordAccessBody_fresh_small {s : LRUKReplacer} {f : Nat}
    (h : Inv s) (hl : lookupNode s.node_store f = none) (hk2 : 2 ≤ s.k) :
    Inv (s.recordAccessBody f) := by
  rw [recordAccessBody_fresh_small hl hk2]
  have hfn : f ∉ s.fifo_list := not_mem_fifo_of_lookup_none h hl
  have hln : f ∉ s.lru_list := not_mem_lru_of_lookup_none h hl
  have hkeys : f ∉ s.node_store.map Prod.fst := by
    intro hm
    obtain ⟨p, hp, hpf⟩ := List.mem_map.mp hm
    exact (lookupNode_eq_none_iff.mp hl p hp) hpf
  refine ⟨h.k_pos, ?_, ?_, ?_, ?_, ?_, ?_, h.lru_nodup, ?_, ?_, h.lru_iter,
    ?_, ?_, ?_, ?_, ?_, ?_⟩
  · rw [List.map_cons]
    exact List.nodup_cons.mpr ⟨hkeys, h.store_nodup⟩
  · intro p hp
    rcases List.mem_cons.mp hp with hp | hp
    · subst hp; rfl
    · exact h.fid_eq p hp
  · intro g hg
    rcases List.mem_cons.mp hg with rfl | hg
    · exact ⟨_, lookupNode_cons_self, by simp; omega⟩
    · have hgf : g ≠ f := fun hgf => hfn (hgf ▸ hg)
      obtain ⟨m, hm, hlen⟩ := h.fifo_tracked g hg
      exact ⟨m, by rw [lookupNode_cons_ne (Ne.symm hgf)]; exact hm, hlen⟩
  · intro g hg
    have hgf : g ≠ f := fun hgf => hln (hgf ▸ hg)
    obtain ⟨m, hm, hlen⟩ := h.lru_tracked g hg
    exact ⟨m, by rw [lookupNode_cons_ne (Ne.symm hgf)]; exact hm, hlen⟩
  · intro p hp
    rcases List.mem_cons.mp hp with hp | hp
    · subst hp
      exact Or.inl (List.mem_cons_self _ _)
    · rcases h.tracked_mem p hp with hm | hm
      · exact Or.inl (List.mem_cons_of_mem _ hm)
      · exact Or.inr hm
  · exact List.nodup_cons.mpr ⟨hfn, h.fifo_nodup⟩
  · intro g hg
    rcases List.mem_cons.mp hg with rfl | hg
    · exact hln
    · exact h.fifo_lru_disj g hg
  · intro g hg
    rcases List.mem_cons.mp hg with rfl | hg
    · exact mem_insertIter_self _ _
    · exact mem_insertIter_of_mem (h.fifo_iter g hg)
  · simpa [countEvictable, List.filter_cons] using h.size_eq
  · intro p hp t ht
    rcases List.mem_cons.mp hp with hp | hp
    · subst hp
      simp only [List.mem_singleton] at ht
      show t < s.current_timestamp + 1
      omega
    · have := h.hist_lt p hp t ht
      show t < s.current_timestamp + 1
      omega
  · intro p hp
    rcases List.mem_cons.mp hp with hp | hp
    · subst hp; simp
    · exact h.hist_sorted p hp
  · intro p hp
    rcases List.mem_cons.mp hp with hp | hp
    · subst hp
      simpa using h.k_pos
    · exact h.hist_len p hp
  · intro p hp
    rcases List.mem_cons.mp hp with hp | hp
    · subst hp; simp
    · exact h.hist_ne_nil p hp
  · refine List.pairwise_cons.mpr ⟨?_, ?_⟩
    · intro g hg
      have hgf : g ≠ f := fun hgf => hfn (hgf ▸ hg)
      obtain ⟨m, hm, -⟩ := h.fifo_tracked g hg
      rw [histBack_cons_ne hgf, histBack_eq lookupNode_cons_self,
        histBack_eq hm]
      have hmem := getLastD_mem (h.hist_ne_nil (g, m) (lookupNode_mem hm)) 0
      have := h.hist_lt (g, m) (lookupNode_mem hm) _ hmem
      simpa using this
    · refine pairwise_congr_of_mem ?_ h.fifo_sorted
      intro a ha b hb hab
      have haf : a ≠ f := fun he => hfn (he ▸ ha)
      have hbf : b ≠ f := fun he => hfn (he ▸ hb)
      rw [histBack_cons_ne haf, histBack_cons_ne hbf]
      exact hab

theorem inv_recordAccessBody_fresh_k1 {s : LRUKReplacer} {f : Nat}
    (h : Inv s) (hl : lookupNode s.node_store f = none) (hk1 : s.k = 1) :
    Inv (s.recordAccessBody f) := by
  rw [recordAccessBody_fresh_k1 hl hk1]
  have hfn : f ∉ s.fifo_list := not_mem_fifo_of_lookup_none h hl
  have hln : f ∉ s.lru_list := not_mem_lru_of_lookup_none h hl
  have hkeys : f ∉ s.node_store.map Prod.fst := by
    intro hm
    obtain ⟨p, hp, hpf⟩ := List.mem_map.mp hm
    exact (lookupNode_eq_none_iff.mp hl p hp) hpf
  refine ⟨h.k_pos, ?_, ?_, ?_, ?_, ?_, h.fifo_nodup, ?_, ?_, ?_, ?_,
    ?_, ?_, ?_, ?_, ?_, ?_⟩
  · rw [List.map_cons]
    exact List.nodup_cons.mpr ⟨hkeys, h.store_nodup⟩
  · intro p hp
    rcases List.mem_cons.mp hp with hp | hp
    · subst hp; rfl
    · exact h.fid_eq p hp
  · intro g hg
    have hgf : g ≠ f := fun hgf => hfn (hgf ▸ hg)
    obtain ⟨m, hm, hlen⟩ := h.fifo_tracked g hg
    exact ⟨m, by rw [lookupNode_cons_ne (Ne.symm hgf)]; exact hm, hlen⟩
  · intro g hg
    rcases List.mem_cons.mp hg with rfl | hg
    · exact ⟨_, lookupNode_cons_self, by simp [hk1]⟩
    · have hgf : g ≠ f := fun hgf => hln (hgf ▸ hg)
      obtain ⟨m, hm, hlen⟩ := h.lru_tracked g hg
      exact ⟨m, by rw [lookupNode_cons_ne (Ne.symm hgf)]; exact hm, hlen⟩
  · intro p hp
    rcases List.mem_cons.mp hp with hp | hp
    · subst hp
      exact Or.inr (List.mem_cons_self _ _)
    · rcases h.tracked_mem p hp with hm | hm
      · exact Or.inl hm
      · exact Or.inr (List.mem_cons_of_mem _ hm)
  · exact List.nodup_cons.mpr ⟨hln, h.lru_nodup⟩
  · intro g hg
    intro hgl
    rcases List.mem_cons.mp hgl with rfl | hgl
    · exact hfn hg
    · exact h.fifo_lru_disj g hg hgl
  · intro g hg
    exact mem_insertIter_of_mem (h.fifo_iter g hg)
  · intro g hg
    rcases List.mem_cons.mp hg with rfl | hg
    · exact mem_insertIter_self _ _
    · exact mem_insertIter_of_mem (h.lru_iter g hg)
  · simpa [countEvictable, List.filter_cons] using h.size_eq
  · intro p hp t ht
    rcases List.mem_cons.mp hp with hp | hp
    · subst hp
      simp only [List.mem_singleton] at ht
      show t < s.current_timestamp + 1
      omega
    · have := h.hist_lt p hp t ht
      show t < s.current_timestamp + 1
      omega
  · intro p hp
    rcases List.mem_cons.mp hp with hp | hp
    · subst hp; simp
    · exact h.hist_sorted p hp
  · intro p hp
    rcases List.mem_cons.mp hp with hp | hp
    · subst hp
      simpa using h.k_pos
    · exact h.hist_len p hp
  · intro p hp
    rcases List.mem_cons.mp hp with hp | hp
    · subst hp; simp
    · exact h.hist_ne_nil p hp
  · refine pairwise_congr_of_mem ?_ h.fifo_sorted
    intro a ha b hb hab
    have haf : a ≠ f := fun he => hfn (he ▸ ha)
    have hbf : b ≠ f := fun he => hfn (he ▸ hb)
    rw [histBack_cons_ne haf, histBack_cons_ne hbf]
    exact hab


theorem inv_recordAccessBody_existing_small {s : LRUKReplacer} {f : Nat}
    {node : LRUKNode} (h : Inv s) (hl : lookupNode s.node_store f = some node)
    (hsz : node.history.length + 1 < s.k) :
    Inv (s.recordAccessBody f) := by
  rw [recordAccessBody_existing_small hl hsz]
  have hpm : (f, node) ∈ s.node_store := lookupNode_mem hl
  have hne : node.history ≠ [] := h.hist_ne_nil (f, node) hpm
  have hB : ∀ g, histBack (updateNode s.node_store f
      { node with history := s.current_timestamp :: node.history }) g =
      histBack s.node_store g := by
    intro g
    by_cases hg : g = f
    · subst hg
      rw [histBack_eq (lookupNode_update_self hl), histBack_eq hl]
      exact getLastD_cons_of_ne_nil hne _ _
    · exact histBack_update_ne hg
  refine ⟨h.k_pos, ?_, ?_, ?_, ?_, ?_, h.fifo_nodup, h.lru_nodup,
    h.fifo_lru_disj, h.fifo_iter, h.lru_iter, ?_, ?_, ?_, ?_, ?_, ?_⟩
  · rw [keys_updateNode]; exact h.store_nodup
  · intro p hp
    rcases mem_updateNode hp with ⟨hp1, -⟩ | hp1
    · exact h.fid_eq p hp1
    · subst hp1
      simpa using h.fid_eq (f, node) hpm
  · intro g hg
    by_cases hgf : g = f
    · subst hgf
      refine ⟨_, lookupNode_update_self hl, ?_⟩
      simp only [List.length_cons]
      omega
    · obtain ⟨m, hm, hlen⟩ := h.fifo_tracked g hg
      exact ⟨m, by rw [lookupNode_update_ne hgf]; exact hm, hlen⟩
  · intro g hg
    by_cases hgf : g = f
    · subst hgf
      obtain ⟨m, hm, hlen⟩ := h.lru_tracked g hg
      rw [hl] at hm
      injection hm with hm
      subst hm
      omega
    · obtain ⟨m, hm, hlen⟩ := h.lru_tracked g hg
      exact ⟨m, by rw [lookupNode_update_ne hgf]; exact hm, hlen⟩
  · intro p hp
    rcases mem_updateNode hp with ⟨hp1, -⟩ | hp1
    · exact h.tracked_mem p hp1
    · subst hp1
      simpa using h.tracked_mem (f, node) hpm
  · have hcu := countEvictable_update
      (n := { node with history := s.current_timestamp :: node.history })
      h.store_nodup hl
    have hsq := h.size_eq
    cases hb : node.is_evictable <;>
      · simp [hb] at hcu ⊢
        omega
  · intro p hp t ht
    rcases mem_updateNode hp with ⟨hp1, -⟩ | hp1
    · have := h.hist_lt p hp1 t ht
      show t < s.current_timestamp + 1
      omega
    · subst hp1
      simp only [List.mem_cons] at ht
      show t < s.current_timestamp + 1
      rcases ht with rfl | ht
      · omega
      · have := h.hist_lt (f, node) hpm t ht
        omega
  · intro p hp
    rcases mem_updateNode hp with ⟨hp1, -⟩ | hp1
    · exact h.hist_sorted p hp1
    · subst hp1
      show List.Chain' (fun a b => b < a) (s.current_timestamp :: node.history)
      exact chain'_gt_cons (fun t ht => h.hist_lt (f, node) hpm t ht)
        (h.hist_sorted (f, node) hpm)
  · intro p hp
    rcases mem_updateNode hp with ⟨hp1, -⟩ | hp1
    · exact h.hist_len p hp1
    · subst hp1
      show (s.current_timestamp :: node.history).length ≤ s.k
      simp only [List.length_cons]
      omega
  · intro p hp
    rcases mem_updateNode hp with ⟨hp1, -⟩ | hp1
    · exact h.hist_ne_nil p hp1
    · subst hp1
      show (s.current_timestamp :: node.history) ≠ []
      simp
  · exact h.fifo_sorted.imp (fun hab => by rw [hB, hB]; exact hab)

theorem inv_recordAccessBody_existing_promote {s : LRUKReplacer} {f : Nat}
    {node : LRUKNode} (h : Inv s) (hl : lookupNode s.node_store f = some node)
    (hsz : node.history.length + 1 = s.k) :
    Inv (s.recordAccessBody f) := by
  rw [recordAccessBody_existing_promote hl hsz]
  have hpm : (f, node) ∈ s.node_store := lookupNode_mem hl
  have hffifo : f ∈ s.fifo_list := by
    rcases h.tracked_mem (f, node) hpm with hm | hm
    · exact hm
    · obtain ⟨m, hm', hlen⟩ := h.lru_tracked f hm
      rw [hl] at hm'
      injection hm' with hm'
      subst hm'
      omega
  have hfl : f ∉ s.lru_list := h.fifo_lru_disj f hffifo
  refine ⟨h.k_pos, ?_, ?_, ?_, ?_, ?_, ?_, ?_, ?_, ?_, ?_, ?_, ?_, ?_, ?_, ?_, ?_⟩
  · rw [keys_updateNode]; exact h.store_nodup
  · intro p hp
    rcases mem_updateNode hp with ⟨hp1, -⟩ | hp1
    · exact h.fid_eq p hp1
    · subst hp1
      simpa using h.fid_eq (f, node) hpm
  · intro g hg
    have hg1 : g ∈ s.fifo_list := List.mem_of_mem_erase hg
    have hgf : g ≠ f := by
      rintro rfl
      exact h.fifo_nodup.not_mem_erase hg
    obtain ⟨m, hm, hlen⟩ := h.fifo_tracked g hg1
    exact ⟨m, by rw [lookupNode_update_ne hgf]; exact hm, hlen⟩
  · intro g hg
    rcases List.mem_cons.mp hg with rfl | hg
    · refine ⟨_, lookupNode_update_self hl, ?_⟩
      simp only [List.length_cons]
      omega
    · have hgf : g ≠ f := fun hgf => hfl (hgf ▸ hg)
      obtain ⟨m, hm, hlen⟩ := h.lru_tracked g hg
      exact ⟨m, by rw [lookupNode_update_ne hgf]; exact hm, hlen⟩
  · intro p hp
    rcases mem_updateNode hp with ⟨hp1, hp2⟩ | hp1
    · rcases h.tracked_mem p hp1 with hm | hm
      · exact Or.inl ((List.mem_erase_of_ne hp2).mpr hm)
      · exact Or.inr (List.mem_cons_of_mem _ hm)
    · subst hp1
      exact Or.inr (List.mem_cons_self _ _)
  · exact h.fifo_nodup.erase f
  · exact List.nodup_cons.mpr ⟨hfl, h.lru_nodup⟩
  · intro g hg
    have hg1 : g ∈ s.fifo_list := List.mem_of_mem_erase hg
    have hgf : g ≠ f := by
      rintro rfl
      exact h.fifo_nodup.not_mem_erase hg
    intro hgl
    rcases List.mem_cons.mp hgl with rfl | hgl
    · exact hgf rfl
    · exact h.fifo_lru_disj g hg1 hgl
  · intro g hg
    exact mem_insertIter_of_mem (h.fifo_iter g (List.mem_of_mem_erase hg))
  · intro g hg
    rcases List.mem_cons.mp hg with rfl | hg
    · exact mem_insertIter_self _ _
    · exact mem_insertIter_of_mem (h.lru_iter g hg)
  · have hcu := countEvictable_update
      (n := { node with history := s.current_timestamp :: node.history })
      h.store_nodup hl
    have hsq := h.size_eq
    cases hb : node.is_evictable <;>
      · simp [hb] at hcu ⊢
        omega
  · intro p hp t ht
    rcases mem_updateNode hp with ⟨hp1, -⟩ | hp1
    · have := h.hist_lt p hp1 t ht
      show t < s.current_timestamp + 1
      omega
    · subst hp1
      simp only [List.mem_cons] at ht
      show t < s.current_timestamp + 1
      rcases ht with rfl | ht
      · omega
      · have := h.hist_lt (f, node) hpm t ht
        omega
  · intro p hp
    rcases mem_updateNode hp with ⟨hp1, -⟩ | hp1
    · exact h.hist_sorted p hp1
    · subst hp1
      show List.Chain' (fun a b => b < a) (s.current_timestamp :: node.history)
      exact chain'_gt_cons (fun t ht => h.hist_lt (f, node) hpm t ht)
        (h.hist_sorted (f, node) hpm)
  · intro p hp
    rcases mem_updateNode hp with ⟨hp1, -⟩ | hp1
    · exact h.hist_len p hp1
    · subst hp1
      show (s.current_timestamp :: node.history).length ≤ s.k
      simp only [List.length_cons]
      omega
  · intro p hp
    rcases mem_updateNode hp with ⟨hp1, -⟩ | hp1
    · exact h.hist_ne_nil p hp1
    · subst hp1
      show (s.current_timestamp :: node.history) ≠ []
      simp
  · refine pairwise_congr_of_mem ?_ (h.fifo_sorted.sublist (List.erase_sublist _ _))
    intro a ha b hb hab
    have haf : a ≠ f := by
      rintro rfl
      exact h.fifo_nodup.not_mem_erase ha
    have hbf : b ≠ f := by
      rintro rfl
      exact h.fifo_nodup.not_mem_erase hb
    rw [histBack_update_ne haf, histBack_update_ne hbf]
    exact hab

theorem inv_recordAccessBody_existing_trim {s : LRUKReplacer} {f : Nat}
    {node : LRUKNode} (h : Inv s) (hl : lookupNode s.node_store f = some node)
    (hsz : s.k < node.history.length + 1) :
    Inv (s.recordAccessBody f) := by
  rw [recordAccessBody_existing_trim hl hsz]
  have hpm : (f, node) ∈ s.node_store := lookupNode_mem hl
  have heq : node.history.length = s.k :=
    Nat.le_antisymm (h.hist_len (f, node) hpm) (by omega)
  have hffifo : f ∉ s.fifo_list := by
    intro hm
    obtain ⟨m, hm', hlen⟩ := h.fifo_tracked f hm
    rw [hl] at hm'
    injection hm' with hm'
    subst hm'
    omega
  have hflru : f ∈ s.lru_list := by
    rcases h.tracked_mem (f, node) hpm with hm | hm
    · exact absurd hm hffifo
    · exact hm
  have hkpos := h.k_pos
  obtain ⟨km, hkm⟩ : ∃ m, s.k = m + 1 := ⟨s.k - 1, by omega⟩
  refine ⟨h.k_pos, ?_, ?_, ?_, ?_, ?_, h.fifo_nodup, ?_, ?_, h.fifo_iter, ?_,
    ?_, ?_, ?_, ?_, ?_, ?_⟩
  · rw [keys_updateNode]; exact h.store_nodup
  · intro p hp
    rcases mem_updateNode hp with ⟨hp1, -⟩ | hp1
    · exact h.fid_eq p hp1
    · subst hp1
      simpa using h.fid_eq (f, node) hpm
  · intro g hg
    have hgf : g ≠ f := fun hgf => hffifo (hgf ▸ hg)
    obtain ⟨m, hm, hlen⟩ := h.fifo_tracked g hg
    exact ⟨m, by rw [lookupNode_update_ne hgf]; exact hm, hlen⟩
  · intro g hg
    rcases mem_insertByStale.mp hg with rfl | hg
    · refine ⟨_, lookupNode_update_self hl, ?_⟩
      show ((s.current_timestamp :: node.history).take s.k).length = s.k
      simp only [List.length_take, List.length_cons]
      omega
    · have hg1 : g ∈ s.lru_list := List.mem_of_mem_erase hg
      have hgf : g ≠ f := by
        rintro rfl
        exact h.lru_nodup.not_mem_erase hg
      obtain ⟨m, hm, hlen⟩ := h.lru_tracked g hg1
      exact ⟨m, by rw [lookupNode_update_ne hgf]; exact hm, hlen⟩
  · intro p hp
    rcases mem_updateNode hp with ⟨hp1, hp2⟩ | hp1
    · rcases h.tracked_mem p hp1 with hm | hm
      · exact Or.inl hm
      · exact Or.inr (mem_insertByStale.mpr
          (Or.inr ((List.mem_erase_of_ne hp2).mpr hm)))
    · subst hp1
      exact Or.inr (mem_insertByStale.mpr (Or.inl rfl))
  · exact nodup_insertByStale (h.lru_nodup.not_mem_erase) (h.lru_nodup.erase f)
  · intro g hg
    intro hgl
    have hgf : g ≠ f := fun hgf => hffifo (hgf ▸ hg)
    rcases mem_insertByStale.mp hgl with rfl | hgl
    · exact hgf rfl
    · exact h.fifo_lru_disj g hg (List.mem_of_mem_erase hgl)
  · intro g hg
    rcases mem_insertByStale.mp hg with rfl | hg
    · exact mem_insertIter_self _ _
    · exact mem_insertIter_of_mem (h.lru_iter g (List.mem_of_mem_erase hg))
  · have hcu := countEvictable_update
      (n := { node with history := (s.current_timestamp :: node.history).take s.k })
      h.store_nodup hl
    have hsq := h.size_eq
    cases hb : node.is_evictable <;>
      · simp [hb] at hcu ⊢
        omega
  · intro p hp t ht
    rcases mem_updateNode hp with ⟨hp1, -⟩ | hp1
    · have := h.hist_lt p hp1 t ht
      show t < s.current_timestamp + 1
      omega
    · subst hp1
      have ht2 : t ∈ s.current_timestamp :: node.history :=
        List.take_subset _ _ (by simpa using ht)
      simp only [List.mem_cons] at ht2
      show t < s.current_timestamp + 1
      rcases ht2 with rfl | ht2
      · omega
      · have := h.hist_lt (f, node) hpm t ht2
        omega
  · intro p hp
    rcases mem_updateNode hp with ⟨hp1, -⟩ | hp1
    · exact h.hist_sorted p hp1
    · subst hp1
      show List.Chain' (fun a b => b < a)
        ((s.current_timestamp :: node.history).take s.k)
      exact (chain'_gt_cons (fun t ht => h.hist_lt (f, node) hpm t ht)
        (h.hist_sorted (f, node) hpm)).take _
  · intro p hp
    rcases mem_updateNode hp with ⟨hp1, -⟩ | hp1
    · exact h.hist_len p hp1
    · subst hp1
      show ((s.current_timestamp :: node.history).take s.k).length ≤ s.k
      simp only [List.length_take]
      omega
  · intro p hp
    rcases mem_updateNode hp with ⟨hp1, -⟩ | hp1
    · exact h.hist_ne_nil p hp1
    · subst hp1
      show ((s.current_timestamp :: node.history).take s.k) ≠ []
      rw [hkm, List.take_succ_cons]
      simp
  · refine pairwise_congr_of_mem ?_ h.fifo_sorted
    intro a ha b hb hab
    have haf : a ≠ f := fun he => hffifo (he ▸ ha)
    have hbf : b ≠ f := fun he => hffifo (he ▸ hb)
    rw [histBack_update_ne haf, histBack_update_ne hbf]
    exact hab

theorem inv_recordAccessBody {s : LRUKReplacer} (h : Inv s) (f : Nat) :
    Inv (s.recordAccessBody f) := by
  cases hl : lookupNode s.node_store f with
  | none =>
    rcases Nat.lt_or_ge s.k 2 with hk | hk
    · have hk1 : s.k = 1 := by have := h.k_pos; omega
      exact inv_recordAccessBody_fresh_k1 h hl hk1
    · exact inv_recordAccessBody_fresh_small h hl hk
  | some node =>
    rcases Nat.lt_trichotomy (node.history.length + 1) s.k with hc | hc | hc
    · exact inv_recordAccessBody_existing_small h hl hc
    · exact inv_recordAccessBody_existing_promote h hl hc
    · exact inv_recordAccessBody_existing_trim h hl hc

theorem inv_reachable {s : LRUKReplacer} (h : Reachable s) : Inv s := by
  induction h with
  | init num_frames k hk => exact inv_mkReplacer num_frames k hk
  | record f t hr hs ih =>
    unfold LRUKReplacer.recordAccess at hs
    split at hs
    · exact absurd hs (by simp)
    · injection hs with hs
      rw [← hs]
      exact inv_recordAccessBody ih f
  | setEv f b hr ih => exact inv_setEvictable ih f b
  | evictStep hr ih => exact inv_evict ih
  | removeStep f hr ih => exact inv_remove ih f


/-! Theorems for the specification claims. -/

/-- History of `f` as recorded before an access: the record contents, or
empty when the frame is untracked. -/
def oldHistory (s : LRUKReplacer) (f : Nat) : List Nat :=
  match lookupNode s.node_store f with
  | some n => n.history
  | none => []

/-- C7: in every reachable state, `Size()` equals the number of tracked
records whose `is_evictable` flag is true, and `SetEvictable` changes
`curr_size_` by one exactly on a false-to-true or true-to-false transition
of a tracked frame and leaves it unchanged when setting the current value
again. -/
theorem size_counts_evictable {s : LRUKReplacer} (hr : Reachable s)
    (hub : s.ub = false) :
    s.size = countEvictable s.node_store ∧
    (∀ f node, lookupNode s.node_store f = some node →
      ((s.setEvictable f node.is_evictable).curr_size = s.curr_size ∧
       (node.is_evictable = true →
         (s.setEvictable f false).curr_size + 1 = s.curr_size) ∧
       (node.is_evictable = false →
         (s.setEvictable f true).curr_size = s.curr_size + 1))) ∧
    (∀ f b, lookupNode s.node_store f = none →
      (s.setEvictable f b).curr_size = s.curr_size) := by
  have h := inv_reachable hr
  refine ⟨h.size_eq, ?_, ?_⟩
  · intro f node hl
    refine ⟨?_, ?_, ?_⟩
    · rw [setEvictable_eq_some hl]
      cases hb : node.is_evictable <;> simp [hb]
    · intro hb
      rw [setEvictable_eq_some hl]
      have hpos : 1 ≤ countEvictable s.node_store := countEvictable_pos hl hb
      have hsz := h.size_eq
      simp only [hb, Bool.not_false, Bool.and_true, if_true]
      omega
    · intro hb
      rw [setEvictable_eq_some hl]
      simp [hb]
  · intro f b hl
    rw [setEvictable_eq_none hl]

/-- C9: in every reachable state every tracked history has length at most K
and is strictly most-recent-first, and a successful `RecordAccess` leaves the
accessed frame's history equal to the current timestamp pushed onto its
previous history, trimmed to the K most recent entries, still strictly
most-recent-first. -/
theorem history_bounded_and_recent {s : LRUKReplacer} (hr : Reachable s)
    (hub : s.ub = false) :
    (∀ p ∈ s.node_store, p.2.history.length ≤ s.k ∧
      List.Chain' (fun a b => b < a) p.2.history) ∧
    (∀ f s', s.recordAccess f = some s' →
      ∃ n', lookupNode s'.node_store f = some n' ∧
        n'.history = (s.current_timestamp :: oldHistory s f).take s.k ∧
        List.Chain' (fun a b => b < a) n'.history) := by
  have h := inv_reachable hr
  constructor
  · intro p hp
    exact ⟨h.hist_len p hp, h.hist_sorted p hp⟩
  · intro f s' hs
    unfold LRUKReplacer.recordAccess at hs
    split at hs
    · exact absurd hs (by simp)
    · injection hs with hs
      subst hs
      have hinv' := inv_recordAccessBody h f
      cases hl : lookupNode s.node_store f with
      | none =>
        have hold : oldHistory s f = [] := by unfold oldHistory; rw [hl]
        have htake : (s.current_timestamp :: oldHistory s f).take s.k =
            [s.current_timestamp] := by
          rw [hold]
          exact List.take_of_length_le (by simpa using h.k_pos)
        rcases Nat.lt_or_ge s.k 2 with hk | hk
        · have hk1 : s.k = 1 := by have := h.k_pos; omega
          rw [recordAccessBody_fresh_k1 hl hk1]
          refine ⟨_, lookupNode_cons_self, ?_, ?_⟩
          · rw [htake]
          · simp
        · rw [recordAccessBody_fresh_small hl hk]
          refine ⟨_, lookupNode_cons_self, ?_, ?_⟩
          · rw [htake]
          · simp
      | some node =>
        have hold : oldHistory s f = node.history := by unfold oldHistory; rw [hl]
        have hpm : (f, node) ∈ s.node_store := lookupNode_mem hl
        have hch : List.Chain' (fun a b => b < a)
            (s.current_timestamp :: node.history) :=
          chain'_gt_cons (fun t ht => h.hist_lt (f, node) hpm t ht)
            (h.hist_sorted (f, node) hpm)
        rcases Nat.lt_trichotomy (node.history.length + 1) s.k with hc | hc | hc
        · rw [recordAccessBody_existing_small hl hc]
          refine ⟨_, lookupNode_update_self hl, ?_, ?_⟩
          · show s.current_timestamp :: node.history = _
            rw [hold]
            exact (List.take_of_length_le (by simp; omega)).symm
          · exact hch
        · rw [recordAccessBody_existing_promote hl hc]
          refine ⟨_, lookupNode_update_self hl, ?_, ?_⟩
          · show s.current_timestamp :: node.history = _
            rw [hold]
            exact (List.take_of_length_le (by simp; omega)).symm
          · exact hch
        · rw [recordAccessBody_existing_trim hl hc]
          refine ⟨_, lookupNode_update_self hl, ?_, ?_⟩
          · show (s.current_timestamp :: node.history).take s.k = _
            rw [hold]
          · exact hch.take _

/-- C10: in every reachable state a frame is in `fifo_list_` exactly when it
is tracked with history length below K, in `lru_list_` exactly when it is
tracked with history length equal to K, never in both, and an untracked
frame is in neither. -/
theorem lists_partition_frames {s : LRUKReplacer} (hr : Reachable s)
    (hub : s.ub = false) (f : Nat) :
    ((∃ n, lookupNode s.node_store f = some n ∧ n.history.length < s.k) ↔
      f ∈ s.fifo_list) ∧
    ((∃ n, lookupNode s.node_store f = some n ∧ n.history.length = s.k) ↔
      f ∈ s.lru_list) ∧
    ¬(f ∈ s.fifo_list ∧ f ∈ s.lru_list) ∧
    (lookupNode s.node_store f = none → f ∉ s.fifo_list ∧ f ∉ s.lru_list) := by
  have h := inv_reachable hr
  refine ⟨⟨?_, ?_⟩, ⟨?_, ?_⟩, ?_, ?_⟩
  · rintro ⟨n, hn, hlen⟩
    rcases h.tracked_mem (f, n) (lookupNode_mem hn) with hm | hm
    · exact hm
    · obtain ⟨m, hm', hlen'⟩ := h.lru_tracked f hm
      rw [hn] at hm'
      injection hm' with hm'
      subst hm'
      omega
  · intro hm
    obtain ⟨n, hn, hlen⟩ := h.fifo_tracked f hm
    exact ⟨n, hn, hlen⟩
  · rintro ⟨n, hn, hlen⟩
    rcases h.tracked_mem (f, n) (lookupNode_mem hn) with hm | hm
    · obtain ⟨m, hm', hlen'⟩ := h.fifo_tracked f hm
      rw [hn] at hm'
      injection hm' with hm'
      subst hm'
      omega
    · exact hm
  · intro hm
    obtain ⟨n, hn, hlen⟩ := h.lru_tracked f hm
    exact ⟨n, hn, hlen⟩
  · rintro ⟨h1, h2⟩
    exact h.fifo_lru_disj f h1 h2
  · intro hl
    exact ⟨not_mem_fifo_of_lookup_none h hl, not_mem_lru_of_lookup_none h hl⟩


/-- C6: whenever some evictable frame with fewer than K recorded accesses
exists, `Evict` returns an evictable frame with fewer than K accesses — in
preference to every frame with K accesses — and among all evictable frames
with fewer than K accesses the returned one has the strictly earliest first
access timestamp (`history.back()`, classic FIFO). -/
theorem evict_picks_earliest_infinite {s : LRUKReplacer} (hr : Reachable s)
    (hub : s.ub = false) {f0 : Nat} {n0 : LRUKNode}
    (h0 : lookupNode s.node_store f0 = some n0)
    (hev0 : n0.is_evictable = true) (hlen0 : n0.history.length < s.k) :
    ∃ v nv, (s.evict).1 = some v ∧ lookupNode s.node_store v = some nv ∧
      nv.is_evictable = true ∧ nv.history.length < s.k ∧
      ∀ g ng, lookupNode s.node_store g = some ng → ng.is_evictable = true →
        ng.history.length < s.k → g ≠ v →
          nv.history.getLastD 0 < ng.history.getLastD 0 := by
  have h := inv_reachable hr
  have hf0 : f0 ∈ s.fifo_list := by
    rcases h.tracked_mem (f0, n0) (lookupNode_mem h0) with hm | hm
    · exact hm
    · obtain ⟨m, hm', hlen'⟩ := h.lru_tracked f0 hm
      rw [h0] at hm'
      injection hm' with hm'
      subst hm'
      omega
  have hne : s.fifo_list ≠ [] := List.ne_nil_of_mem hf0
  have hp0 : isEvictableIn s.node_store f0 = true :=
    isEvictableIn_eq_true_iff.mpr ⟨n0, h0, hev0⟩
  cases hfind : s.fifo_list.reverse.find?
      (fun g => isEvictableIn s.node_store g) with
  | none =>
    exfalso
    have := List.find?_eq_none.mp hfind f0 (List.mem_reverse.mpr hf0)
    exact this hp0
  | some v =>
    have hvfifo : v ∈ s.fifo_list := by
      have := List.mem_of_find?_eq_some hfind
      rwa [List.mem_reverse] at this
    obtain ⟨nv, hnv, hnvlen⟩ := h.fifo_tracked v hvfifo
    have hnvev : nv.is_evictable = true := by
      have hfs := List.find?_some hfind
      rw [isEvictableIn_eq_true_iff] at hfs
      obtain ⟨m, hm, hev⟩ := hfs
      rw [hnv] at hm
      injection hm with hm
      subst hm
      exact hev
    have hrev : s.fifo_list.reverse.Pairwise
        (fun a b => histBack s.node_store a < histBack s.node_store b) :=
      List.pairwise_reverse.mpr h.fifo_sorted
    have hmin := pairwise_find?_min hrev hfind
    refine ⟨v, nv, ?_, hnv, hnvev, hnvlen, ?_⟩
    · rw [evict_eq_fifo_some hne hfind]
    · intro g ng hg hgev hglen hgv
      have hgfifo : g ∈ s.fifo_list := by
        rcases h.tracked_mem (g, ng) (lookupNode_mem hg) with hm | hm
        · exact hm
        · obtain ⟨m, hm', hlen'⟩ := h.lru_tracked g hm
          rw [hg] at hm'
          injection hm' with hm'
          subst hm'
          omega
      have hpg : isEvictableIn s.node_store g = true :=
        isEvictableIn_eq_true_iff.mpr ⟨ng, hg, hgev⟩
      rcases hmin g (List.mem_reverse.mpr hgfifo) hpg with rfl | hlt
      · exact absurd rfl hgv
      · rw [histBack_eq hnv, histBack_eq hg] at hlt
        exact hlt


/-- C1: with capacity 5 and K = 2, frame 1 is promoted to `lru_list_` with
two accesses and marked evictable, and frame 2 sits non-evictable in
`fifo_list_`.  `Evict` returns `none` even though frame 1 is an evictable
`k_order` candidate: the code returns inside the non-empty-fifo branch
instead of continuing into `lru_list_`. -/
theorem evict_gives_up_with_nonevictable_fifo :
    (runFrom 5 2 [Op.access 1, Op.access 1, Op.setEv 1 true, Op.access 2]).map
      (fun s => ((s.evict).1, s.fifo_list, isEvictableIn s.node_store 2,
        s.lru_list, isEvictableIn s.node_store 1,
        (lookupNode s.node_store 1).map (fun n => n.history.length), s.ub)) =
      some (none, [2], false, [1], true, some 2, false) := by rfl

/-- C2: with capacity 10 and K = 3, the final access promotes frame 1 whose
oldest retained timestamp is 2; the code `emplace_front`s it, producing
`lru_list_ = [1, 2, 0]`, although the stale-ordering rule used by the
re-access path (`insertByStale`, the rule the claim requires) would place it
between frame 2 (oldest 4) and frame 0 (oldest 1), i.e. `[2, 1, 0]`. -/
theorem promotion_inserts_at_head_not_sorted :
    (runFrom 10 3 [Op.access 0, Op.access 0, Op.access 1, Op.access 0,
        Op.access 2, Op.access 2, Op.access 2, Op.access 0, Op.access 1,
        Op.access 1]).map
      (fun s => (s.lru_list, histBack s.node_store 0, histBack s.node_store 1,
        histBack s.node_store 2,
        insertByStale s.node_store (histBack s.node_store 1) 1
          (s.lru_list.erase 1), s.ub)) =
      some ([1, 2, 0], 1, 2, 4, [2, 1, 0], false) := by rfl

/-- C3: continuing the C2 trace, all frames are evictable, `fifo_list_` is
empty, and the first eviction removes frame 0.  The next `Evict` returns
frame 2, whose K-th most recent access is at timestamp 4, although frame 1
(K-th most recent access at timestamp 2) has the larger backward-K-distance:
the head-inserted `lru_list_` is not ordered most-stale-at-tail. -/
theorem evict_not_most_stale_k_frame :
    (runFrom 10 3 [Op.access 0, Op.access 0, Op.access 1, Op.access 0,
        Op.access 2, Op.access 2, Op.access 2, Op.access 0, Op.access 1,
        Op.access 1, Op.setEv 0 true, Op.setEv 1 true, Op.setEv 2 true,
        Op.evictOp]).map
      (fun s => ((s.evict).1, s.fifo_list, isEvictableIn s.node_store 1,
        (lookupNode s.node_store 1).map (fun n => n.history.length),
        (lookupNode s.node_store 2).map (fun n => n.history.length),
        histBack s.node_store 1, histBack s.node_store 2, s.ub)) =
      some (some 2, [], true, some 3, some 3, 2, 4, false) := by rfl

/-- C4: `Remove` on a tracked frame whose `is_evictable` flag is false
returns with the whole state unchanged — a silent no-op, with no fatal
error signalled, contrary to the claim (and to the function's own comment
"throw an exception or abort the process"). -/
theorem remove_nonevictable_silent_noop :
    (runFrom 3 2 [Op.access 0]).map (fun s => s.remove 0) =
      runFrom 3 2 [Op.access 0] ∧
    (runFrom 3 2 [Op.access 0]).map
      (fun s => ((lookupNode s.node_store 0).isSome,
        isEvictableIn s.node_store 0)) = some (true, false) := ⟨rfl, rfl⟩

/-- C5 counterexample: with capacity 3, `RecordAccess(3)` — a frame id equal
to the capacity — does not abort: the assertion checks
`frame_id <= replacer_size_`, so the call proceeds normally, contradicting
the claim that `frame_id == capacity` is fatal. -/
theorem recordAccess_at_capacity_not_fatal :
    (mkReplacer 3 2).replacer_size = 3 ∧
    ((mkReplacer 3 2).recordAccess 3).isSome = true := ⟨rfl, rfl⟩

/-- C5 (amended): `RecordAccess(frame_id, access_type)` aborts if and only
if `frame_id` is strictly greater than the capacity; every call with
`frame_id ≤ capacity` (including `frame_id` equal to the capacity) proceeds
normally. -/
theorem recordAccess_fatal_iff_above_capacity (s : LRUKReplacer) (f : Nat)
    (t : AccessType) : s.recordAccess f t = none ↔ s.replacer_size < f := by
  unfold LRUKReplacer.recordAccess
  by_cases hc : s.replacer_size < f
  · simp [hc]
  · simp [hc]

/-- C8: with K = 1, frame 0 is promoted on its first access, which erases it
from `fifo_list_` but leaves its `fid_to_fifo_iter_` entry in place.  A
subsequent `Remove(0)` finds that stale entry and calls `fifo_list_.erase`
on an iterator invalidated at promotion — undefined behavior in C++ (the
model's sticky `ub` flag records exactly this erase). -/
theorem remove_after_promotion_hits_invalid_iterator :
    (runFrom 3 1 [Op.access 0, Op.setEv 0 true]).map
      (fun s => (s.fifo_list, s.lru_list, s.fid_to_fifo_iter.contains 0,
        s.fifo_list.contains 0, s.ub, (s.remove 0).ub)) =
      some ([], [0], true, false, false, true) := by rfl

/-! Witness states for the invariant theorems. -/

/-- Replacer with capacity 5, K = 2: frame 0 accessed once, then marked
evictable. -/
def w6state : LRUKReplacer :=
  ((mkReplacer 5 2).recordAccessBody 0).setEvictable 0 true

theorem w6state_reachable : Reachable w6state :=
  Reachable.setEv 0 true
    (Reachable.record 0 AccessType.unknown (Reachable.init 5 2 (by omega)) rfl)

/-- Replacer with capacity 3, K = 2: frame 0 accessed once. -/
def w7state : LRUKReplacer := (mkReplacer 3 2).recordAccessBody 0

theorem w7state_reachable : Reachable w7state :=
  Reachable.record 0 AccessType.unknown (Reachable.init 3 2 (by omega)) rfl

/-- Replacer with capacity 4, K = 2: frame 1 accessed once. -/
def w9state : LRUKReplacer := (mkReplacer 4 2).recordAccessBody 1

theorem w9state_reachable : Reachable w9state :=
  Reachable.record 1 AccessType.unknown (Reachable.init 4 2 (by omega)) rfl

/-- Replacer with capacity 6, K = 3: frame 2 accessed once. -/
def w10state : LRUKReplacer := (mkReplacer 6 3).recordAccessBody 2

theorem w10state_reachable : Reachable w10state :=
  Reachable.record 2 AccessType.unknown (Reachable.init 6 3 (by omega)) rfl

/-- C6 witness: on a reachable state holding one evictable frame with fewer
than K accesses, the eviction result is in fact a frame. -/
theorem evict_picks_earliest_infinite_witness :
    ((w6state.evict).1).isSome = true := by
  obtain ⟨v, nv, hv, -, -, -, -⟩ := evict_picks_earliest_infinite
    w6state_reachable rfl
    (show lookupNode w6state.node_store 0 =
      some { is_evictable := true, history := [0], fid := 0 } by decide)
    (by decide) (by decide)
  rw [hv]
  rfl

/-- C7 witness: on a concrete reachable state, the size equation holds and
marking the (non-evictable) tracked frame evictable increments the size. -/
theorem size_counts_evictable_witness :
    w7state.size = countEvictable w7state.node_store ∧
    (w7state.setEvictable 0 true).curr_size = w7state.curr_size + 1 := by
  have h := size_counts_evictable w7state_reachable rfl
  refine ⟨h.1, ?_⟩
  exact (h.2.1 0 { is_evictable := false, history := [0], fid := 0 } rfl).2.2 rfl

/-- C9 witness: the tracked record of the concrete reachable state `w9state`
has history length within the bound K. -/
theorem history_bounded_and_recent_witness :
    ({ is_evictable := false, history := [0], fid := 1 } : LRUKNode).history.length ≤
      w9state.k :=
  ((history_bounded_and_recent w9state_reachable rfl).1
    (1, { is_evictable := false, history := [0], fid := 1 }) (by decide)).1

/-- C10 witness: in the concrete reachable state `w10state`, the tracked
frame 2 (history length 1 < K) is in `fifo_list_`. -/
theorem lists_partition_frames_witness : 2 ∈ w10state.fifo_list :=
  ((lists_partition_frames w10state_reachable rfl 2).1).mp
    ⟨{ is_evictable := false, history := [0], fid := 2 }, rfl, by decide⟩

end BusTub
